import Mathlib

/-!
Verification of the dependency-driven task scheduler
(src/orchestrator/dynamic_orchestrator.py and src/orchestrator/autonomous_agent.py).

The scheduler coordinates a set of agents; each agent declares capability keys it
produces (capabilities) and capability keys it requires (dependencies).  The
orchestrator repeatedly finds ready agents (all dependencies present as keys of the
shared state), runs them, and merges each result into the shared state under each of
the capability keys of the agent, until a round makes no progress or the iteration
ceiling is reached.

The embedding below is a direct shallow embedding of that Python code:
  - Python values that flow through the fact store are modelled by PyVal
    (None, int, str, dict, list), dicts as insertion-ordered association lists,
    matching CPython dict semantics for membership, item assignment and update.
  - The process body of an agent is modelled by a function returning Except String PyVal
    (error = raised exception).
  - DynamicOrchestrator.execute is modelled by execute / loop / runRound below;
    wall-clock durations are abstracted to the constant 0 tick (only the presence
    of the execution_time field of a log entry is modelled, not its value).
  - The OrchState fields obs and trace are ghost instrumentation: obs records, for
    each call of agent.execute, the snapshot of the shared state passed to it
    (the Python call agent.execute(self.shared_state) at line 94); trace records,
    per loop iteration, the shared state at the start of the round, the ready list
    and the ids executed this round.  They are write-only and never influence
    control flow, so the shared/executed/log components evolve exactly as in the
    Python code.
  - The publish/subscribe message bus is observational only (design note in the
    spec) and is not modelled; no claim refers to it.
-/

namespace DynOrch

/-- Python runtime values stored in the shared fact store. -/
inductive PyVal : Type where
  | none : PyVal
  | int : Int → PyVal
  | str : String → PyVal
  | dict : List (String × PyVal) → PyVal
  | list : List PyVal → PyVal
deriving Repr

/-- A Python dict from capability key (a string) to a stored value: the fact store. -/
abbrev FactStore := List (String × PyVal)

/-- Python `k in d` membership test on a dict. -/
def hasKey (s : FactStore) (k : String) : Bool :=
  s.any (fun kv => kv.1 == k)

/-- Python `d[k]` lookup (first binding wins; bindings are unique in practice). -/
def lookupKey : FactStore → String → Option PyVal
  | [], _ => Option.none
  | (k', v) :: rest, k => if k' == k then some v else lookupKey rest k

/-- Python `d[k] = v`: replace in place when the key is present, else append. -/
def setKey : FactStore → String → PyVal → FactStore
  | [], k, v => [(k, v)]
  | (k', v') :: rest, k, v =>
      if k' == k then (k', v) :: rest else (k', v') :: setKey rest k v

/-- Python `d.update(r)`: item-assign every binding of r into d, in order. -/
def dictUpdate (d r : List (String × PyVal)) : List (String × PyVal) :=
  r.foldl (fun acc kv => setKey acc kv.1 kv.2) d

/-- Python truthiness of a value, as tested by `if result:`. -/
def truthy : PyVal → Bool
  | .none => false
  | .int n => n != 0
  | .str s => s != ""
  | .dict d => !d.isEmpty
  | .list l => !l.isEmpty

/-- An autonomous agent: identity, produced capability keys, required capability
keys, and the process body (AutonomousAgent.process); a .error result models a
raised exception. -/
structure Agent : Type where
  agent_id : String
  capabilities : List String
  dependencies : List String
  run : FactStore → Except String PyVal

/-- AutonomousAgent.can_execute: every dependency key is present in shared state. -/
def canExecute (a : Agent) (shared : FactStore) : Bool :=
  a.dependencies.all (fun d => hasKey shared d)

/-- AutonomousAgent.execute: returns None when dependencies are unsatisfied,
otherwise runs the process body; exceptions propagate. -/
def agentExecute (a : Agent) (shared : FactStore) : Except String PyVal :=
  if canExecute a shared then a.run shared else .ok PyVal.none

/-- DynamicOrchestrator._find_ready_agents: ids of registered agents, in
registration order, that are not yet executed and whose dependencies are
satisfied. -/
def findReadyAgents (agents : List Agent) (executed : List String)
    (shared : FactStore) : List String :=
  (agents.filter
    (fun a => !executed.contains a.agent_id && canExecute a shared)).map
    (fun a => a.agent_id)

/-- self.agents[agent_id] lookup in the registration dict. -/
def getAgent (agents : List Agent) (id : String) : Option Agent :=
  agents.find? (fun a => a.agent_id == id)

/-- One entry of self.execution_log.  The Python entry is a dict; an Option field
below is present exactly when the corresponding key is present in that dict.
Success entries carry iteration, agent, capabilities, execution_time, success;
failure entries carry iteration, agent, error, success. -/
structure LogEntry : Type where
  iteration : Nat
  agent : String
  capabilities : Option (List String)
  execution_time : Option Nat
  success : Bool
  error : Option String
deriving Repr, DecidableEq

/-- The log entry appended on success (execution time abstracted to 0 ticks). -/
def successEntry (iteration : Nat) (id : String) (caps : List String) : LogEntry :=
  { iteration := iteration, agent := id, capabilities := some caps,
    execution_time := some 0, success := true, error := Option.none }

/-- The log entry appended on failure (no capabilities / execution_time keys). -/
def failEntry (iteration : Nat) (id : String) (e : String) : LogEntry :=
  { iteration := iteration, agent := id, capabilities := Option.none,
    execution_time := Option.none, success := false, error := some e }

/-- Ghost record of one loop iteration: shared state at the start of the round,
the ready list, and the ids executed this round. -/
structure RoundInfo : Type where
  startShared : FactStore
  ready : List String
  ranIds : List String

/-- Orchestrator state: shared fact store, executed agent ids, execution log,
plus ghost observation data (see the file comment). -/
structure OrchState : Type where
  shared : FactStore
  executed : List String
  log : List LogEntry
  obs : List (Nat × String × FactStore)
  trace : List RoundInfo

/-- The key-creation step of the merge (lines 104-106): create the key with an
empty dict value when absent. -/
def ensureKey (s : FactStore) (k : String) : FactStore :=
  if hasKey s k then s else setKey s k (.dict [])

/-- The merge of one result under one present key (the if/else at lines
109-113): if both stored value and result are dicts, update per key; otherwise
store the result wholesale. -/
def mergeCap (s : FactStore) (k : String) (r : PyVal) : FactStore :=
  match lookupKey (ensureKey s k) k, r with
  | some (.dict d), .dict r' => setKey (ensureKey s k) k (.dict (dictUpdate d r'))
  | _, _ => setKey (ensureKey s k) k r

/-- Merge a result under every capability key of the agent (the for loop over
agent.capabilities at lines 101-113). -/
def mergeAgentCaps (caps : List String) (s : FactStore) (r : PyVal) : FactStore :=
  caps.foldl (fun acc k => mergeCap acc k r) s

/-- The body of the per-round for loop over ready agent ids
(dynamic_orchestrator.py lines 87-137).  Returns .error with the state at the
abort point when an agent raises (the Python re-raise), else the updated state
and the executed_this_round list. -/
def runRound (agents : List Agent) (iteration : Nat) :
    List String → OrchState → List String → Except OrchState (OrchState × List String)
  | [], st, etr => .ok (st, etr)
  | id :: rest, st, etr =>
      match getAgent agents id with
      | Option.none => runRound agents iteration rest st etr
      | some a =>
          let st0 := { st with obs := st.obs ++ [(iteration, id, st.shared)] }
          match agentExecute a st.shared with
          | .error e =>
              .error { st0 with log := st0.log ++ [failEntry iteration id e] }
          | .ok r =>
              if truthy r then
                let st1 : OrchState :=
                  { st0 with
                    shared := mergeAgentCaps a.capabilities st0.shared r
                    executed := st0.executed ++ [id]
                    log := st0.log ++ [successEntry iteration id a.capabilities] }
                runRound agents iteration rest st1 (etr ++ [id])
              else
                runRound agents iteration rest st0 etr

/-- The while loop of DynamicOrchestrator.execute (lines 73-143).  fuel is
max_iterations - iteration, so fuel > 0 iff iteration < max_iterations. -/
def loop (agents : List Agent) : Nat → Nat → OrchState → Except OrchState OrchState
  | _, 0, st => .ok st
  | iter, fuel + 1, st =>
      let iteration := iter + 1
      let ready := findReadyAgents agents st.executed st.shared
      if ready.isEmpty then
        .ok { st with trace := st.trace ++ [⟨st.shared, ready, []⟩] }
      else
        match runRound agents iteration ready st [] with
        | .error st' => .error st'
        | .ok (st', etr) =>
            let st'' := { st' with trace := st'.trace ++ [⟨st.shared, ready, etr⟩] }
            if etr.isEmpty then .ok st''
            else loop agents iteration fuel st''

/-- DynamicOrchestrator.execute: copy the initial state, run the round loop.
A .error result models the propagated exception of a failed agent, carrying the
orchestrator instance state at the abort point. -/
def execute (agents : List Agent) (initial : FactStore) (max_iterations : Nat) :
    Except OrchState OrchState :=
  loop agents 0 max_iterations
    { shared := initial, executed := [], log := [], obs := [], trace := [] }

/-- set(self.agents.keys()) - executed_agents: registered ids never executed. -/
def notExecuted (agents : List Agent) (st : OrchState) : List String :=
  (agents.map (fun a => a.agent_id)).filter (fun id => !st.executed.contains id)

/-- The state carried by either outcome of a run: the final state on normal
settlement, or the orchestrator instance state at the abort point on an
exception. -/
def outState : Except OrchState OrchState → OrchState
  | .ok st => st
  | .error st => st

/-- Key-set growth between two fact stores: every key of the first is a key of
the second. -/
def KeysMono (s t : FactStore) : Prop :=
  ∀ c, hasKey s c = true → hasKey t c = true

/-- An agent whose process body always returns without raising, with a truthy
result. -/
def AlwaysOkTruthy (a : Agent) : Prop :=
  ∀ s, ∃ r, a.run s = .ok r ∧ truthy r = true

/-- An agent whose process body never returns a falsy value (it may raise). -/
def TruthyOrRaise (a : Agent) : Prop :=
  ∀ s r, a.run s = .ok r → truthy r = true

/-- Number of times the agent with the given id was invoked during the run,
read off the ghost observation list. -/
def invocations (st : OrchState) (id : String) : Nat :=
  (st.obs.filter (fun o => o.2.1 == id)).length

/-- A task transitively blocked on a missing capability: some required key is
not among the initial facts and every registered producer of that key is itself
blocked (vacuously so when the key has no producer at all). -/
inductive Blocked (agents : List Agent) (init : FactStore) : Agent → Prop where
  | mk (a : Agent) (c : String) :
      a ∈ agents → c ∈ a.dependencies → hasKey init c = false →
      (∀ b ∈ agents, c ∈ b.capabilities → Blocked agents init b) →
      Blocked agents init a

/-! ### Concrete agents used in scenario conjuncts and counterexamples -/

/-- Scenario task P: requires nothing, produces parsed. -/
def agP : Agent :=
  { agent_id := "P", capabilities := ["parsed"], dependencies := [],
    run := fun _ => .ok (.dict [("doc", .int 1)]) }

/-- Scenario task Q: requires parsed, produces questions. -/
def agQ : Agent :=
  { agent_id := "Q", capabilities := ["questions"], dependencies := ["parsed"],
    run := fun _ => .ok (.dict [("q", .int 2)]) }

/-- Scenario task R: requires parsed, produces content. -/
def agR : Agent :=
  { agent_id := "R", capabilities := ["content"], dependencies := ["parsed"],
    run := fun _ => .ok (.dict [("c", .int 3)]) }

/-- First producer of capability C, with mapping payload. -/
def agM1 : Agent :=
  { agent_id := "M1", capabilities := ["C"], dependencies := [],
    run := fun _ => .ok (.dict [("a", .int 1)]) }

/-- Second producer of capability C, with mapping payload. -/
def agM2 : Agent :=
  { agent_id := "M2", capabilities := ["C"], dependencies := [],
    run := fun _ => .ok (.dict [("b", .int 2)]) }

/-- Second producer of capability C, with a non-mapping payload. -/
def agM2n : Agent :=
  { agent_id := "M2", capabilities := ["C"], dependencies := [],
    run := fun _ => .ok (.int 7) }

/-- An agent whose process body returns None (a falsy result). -/
def agFalsy : Agent :=
  { agent_id := "F", capabilities := ["f"], dependencies := [],
    run := fun _ => .ok PyVal.none }

/-- An agent whose process body raises. -/
def agRaise : Agent :=
  { agent_id := "BAD", capabilities := ["x"], dependencies := [],
    run := fun _ => .error "boom" }

/-- An agent requiring a capability that nothing produces. -/
def agStuck : Agent :=
  { agent_id := "X", capabilities := ["xout"], dependencies := ["never-produced"],
    run := fun _ => .ok (.dict [("z", .int 1)]) }

/-- The state component of a runRound result (the orchestrator instance state
whether the round body returned or raised). -/
def rrState : Except OrchState (OrchState × List String) → OrchState
  | .ok (st, _) => st
  | .error st => st

/-- Composite invariant of the orchestrator state, relative to the registered
agents, the initial facts and a bound on the rounds elapsed so far.  Every
component is established by the empty start state and preserved by every step
of the scheduler. -/
structure Inv (agents : List Agent) (init : FactStore) (I : Nat)
    (st : OrchState) : Prop where
  initKeys : KeysMono init st.shared
  execCaps : ∀ id ∈ st.executed, ∃ a, getAgent agents id = some a ∧
      ∀ c ∈ a.capabilities, hasKey st.shared c = true
  nodupExec : st.executed.Nodup
  prov : ∀ c, hasKey st.shared c = true → hasKey init c = true ∨
      ∃ b ∈ agents, b.agent_id ∈ st.executed ∧ c ∈ b.capabilities
  logCaps : ∀ e ∈ st.log, e.success = true → ∃ caps, e.capabilities = some caps ∧
      ∀ c ∈ caps, hasKey st.shared c = true
  logShape : ∀ e ∈ st.log,
      (e.success = true → e.capabilities.isSome ∧ e.execution_time = some 0 ∧
        e.error = Option.none) ∧
      (e.success = false → e.capabilities = Option.none ∧
        e.execution_time = Option.none ∧ e.error.isSome)
  logChain : List.Chain' (fun m n => m ≤ n) (st.log.map (fun e => e.iteration))
  logBound : ∀ e ∈ st.log, e.iteration ≤ I
  obsChain : List.Chain' KeysMono (st.obs.map (fun o => o.2.2) ++ [st.shared])
  traceChain : List.Chain' KeysMono
      (st.trace.map (fun t => t.startShared) ++ [st.shared])
  roundCaps : ∀ pre r post, st.trace = pre ++ r :: post →
      ∀ id ∈ r.ranIds, ∃ a, getAgent agents id = some a ∧
        ∀ c ∈ a.capabilities,
          hasKey (match post with
            | [] => st.shared
            | r2 :: _ => r2.startShared) c = true
  nbExec : ∀ id ∈ st.executed, ∃ b ∈ agents, b.agent_id = id ∧
      ¬ Blocked agents init b

/-! ### Basic lemmas about the dict operations -/

theorem hasKey_cons (k' : String) (v : PyVal) (s : FactStore) (k : String) :
    hasKey ((k', v) :: s) k = ((k' == k) || hasKey s k) := by
  simp [hasKey, List.any_cons]

theorem hasKey_eq_isSome (s : FactStore) (k : String) :
    hasKey s k = (lookupKey s k).isSome := by
  induction s with
  | nil => simp [hasKey, lookupKey]
  | cons kv rest ih =>
    obtain ⟨k', v⟩ := kv
    rw [hasKey_cons]
    by_cases h : k' = k
    · simp [lookupKey, h]
    · simp [lookupKey, h, ih]

theorem lookupKey_setKey_self (s : FactStore) (k : String) (v : PyVal) :
    lookupKey (setKey s k v) k = some v := by
  induction s with
  | nil => simp [setKey, lookupKey]
  | cons kv rest ih =>
    obtain ⟨k', v'⟩ := kv
    by_cases h : k' = k
    · simp [setKey, lookupKey, h]
    · simp [setKey, lookupKey, h, ih]

theorem lookupKey_setKey_other (s : FactStore) (k : String) (v : PyVal) (c : String)
    (h : c ≠ k) : lookupKey (setKey s k v) c = lookupKey s c := by
  have hkc : k ≠ c := Ne.symm h
  induction s with
  | nil => simp [setKey, lookupKey, hkc]
  | cons kv rest ih =>
    obtain ⟨k', v'⟩ := kv
    by_cases h' : k' = k
    · subst h'
      simp [setKey, lookupKey, hkc]
    · simp [setKey, lookupKey, h', ih]

theorem hasKey_setKey_self (s : FactStore) (k : String) (v : PyVal) :
    hasKey (setKey s k v) k = true := by
  simp [hasKey_eq_isSome, lookupKey_setKey_self]

theorem hasKey_setKey_other (s : FactStore) (k : String) (v : PyVal) (c : String)
    (h : c ≠ k) : hasKey (setKey s k v) c = hasKey s c := by
  simp [hasKey_eq_isSome, lookupKey_setKey_other s k v c h]

theorem hasKey_setKey_mono (s : FactStore) (k : String) (v : PyVal) (c : String)
    (h : hasKey s c = true) : hasKey (setKey s k v) c = true := by
  by_cases hc : c = k
  · rw [hc]; exact hasKey_setKey_self s k v
  · rw [hasKey_setKey_other s k v c hc]; exact h

theorem setKey_of_not_hasKey (s : FactStore) (k : String) (v : PyVal)
    (h : hasKey s k = false) : setKey s k v = s ++ [(k, v)] := by
  induction s with
  | nil => simp [setKey]
  | cons kv rest ih =>
    obtain ⟨k', v'⟩ := kv
    rw [hasKey_cons] at h
    simp only [Bool.or_eq_false_iff] at h
    simp [setKey, h.1, ih h.2]

/-! ### Lemmas about mergeCap and mergeAgentCaps -/

theorem lookupKey_ensureKey (s : FactStore) (k c : String) (h : c ≠ k) :
    lookupKey (ensureKey s k) c = lookupKey s c := by
  unfold ensureKey
  split
  · rfl
  · exact lookupKey_setKey_other s k _ c h

theorem lookupKey_mergeCap_other (s : FactStore) (k : String) (r : PyVal) (c : String)
    (h : c ≠ k) : lookupKey (mergeCap s k r) c = lookupKey s c := by
  unfold mergeCap
  split
  · rw [lookupKey_setKey_other _ _ _ _ h]
    exact lookupKey_ensureKey s k c h
  · rw [lookupKey_setKey_other _ _ _ _ h]
    exact lookupKey_ensureKey s k c h

theorem hasKey_ensureKey_self (s : FactStore) (k : String) :
    hasKey (ensureKey s k) k = true := by
  unfold ensureKey
  split
  · assumption
  · exact hasKey_setKey_self s k _

theorem hasKey_mergeCap_self (s : FactStore) (k : String) (r : PyVal) :
    hasKey (mergeCap s k r) k = true := by
  unfold mergeCap
  split
  · exact hasKey_setKey_self _ k _
  · exact hasKey_setKey_self _ k _

theorem hasKey_mergeCap_mono (s : FactStore) (k : String) (r : PyVal) (c : String)
    (h : hasKey s c = true) : hasKey (mergeCap s k r) c = true := by
  by_cases hc : c = k
  · rw [hc]; exact hasKey_mergeCap_self s k r
  · rw [hasKey_eq_isSome, lookupKey_mergeCap_other s k r c hc, ← hasKey_eq_isSome]
    exact h

theorem hasKey_mergeCap_rev (s : FactStore) (k : String) (r : PyVal) (c : String)
    (h : hasKey (mergeCap s k r) c = true) : c = k ∨ hasKey s c = true := by
  by_cases hc : c = k
  · exact Or.inl hc
  · right
    rw [hasKey_eq_isSome, lookupKey_mergeCap_other s k r c hc, ← hasKey_eq_isSome] at h
    exact h

theorem lookupKey_mergeAgentCaps_frame (caps : List String) (s : FactStore) (r : PyVal)
    (c : String) (h : c ∉ caps) :
    lookupKey (mergeAgentCaps caps s r) c = lookupKey s c := by
  induction caps generalizing s with
  | nil => rfl
  | cons k rest ih =>
    have hck : c ≠ k := fun hc => h (hc ▸ List.mem_cons_self k rest)
    have hcr : c ∉ rest := fun hc => h (List.mem_cons_of_mem k hc)
    calc lookupKey (mergeAgentCaps (k :: rest) s r) c
        = lookupKey (mergeAgentCaps rest (mergeCap s k r) r) c := rfl
      _ = lookupKey (mergeCap s k r) c := ih (mergeCap s k r) hcr
      _ = lookupKey s c := lookupKey_mergeCap_other s k r c hck

theorem hasKey_mergeAgentCaps_mono (caps : List String) (s : FactStore) (r : PyVal)
    (c : String) (h : hasKey s c = true) :
    hasKey (mergeAgentCaps caps s r) c = true := by
  induction caps generalizing s with
  | nil => exact h
  | cons k rest ih => exact ih (mergeCap s k r) (hasKey_mergeCap_mono s k r c h)

theorem hasKey_mergeAgentCaps_of_mem (caps : List String) (s : FactStore) (r : PyVal)
    (c : String) (h : c ∈ caps) :
    hasKey (mergeAgentCaps caps s r) c = true := by
  induction caps generalizing s with
  | nil => cases h
  | cons k rest ih =>
    rcases List.mem_cons.mp h with hc | hc
    · subst hc
      exact hasKey_mergeAgentCaps_mono rest (mergeCap s c r) r c
        (hasKey_mergeCap_self s c r)
    · exact ih (mergeCap s k r) hc

theorem hasKey_mergeAgentCaps_rev (caps : List String) (s : FactStore) (r : PyVal)
    (c : String) (h : hasKey (mergeAgentCaps caps s r) c = true) :
    c ∈ caps ∨ hasKey s c = true := by
  induction caps generalizing s with
  | nil => exact Or.inr h
  | cons k rest ih =>
    rcases ih (mergeCap s k r) h with hc | hc
    · exact Or.inl (List.mem_cons_of_mem k hc)
    · rcases hasKey_mergeCap_rev s k r c hc with hc' | hc'
      · exact Or.inl (hc' ▸ List.mem_cons_self k rest)
      · exact Or.inr hc'

theorem keysMono_refl (s : FactStore) : KeysMono s s := fun _ h => h

theorem keysMono_trans {s t u : FactStore} (h1 : KeysMono s t) (h2 : KeysMono t u) :
    KeysMono s u := fun c hc => h2 c (h1 c hc)

theorem keysMono_mergeAgentCaps (caps : List String) (s : FactStore) (r : PyVal) :
    KeysMono s (mergeAgentCaps caps s r) :=
  fun c hc => hasKey_mergeAgentCaps_mono caps s r c hc

theorem canExecute_mono {s t : FactStore} (a : Agent) (h : KeysMono s t)
    (hc : canExecute a s = true) : canExecute a t = true := by
  simp only [canExecute, List.all_eq_true] at hc ⊢
  exact fun d hd => h d (hc d hd)

theorem hasKey_append (s t : FactStore) (k : String) :
    hasKey (s ++ t) k = (hasKey s k || hasKey t k) := by
  simp [hasKey, List.any_append]

theorem dictUpdate_eq_append (r d : List (String × PyVal))
    (hd : ∀ kv ∈ r, hasKey d kv.1 = false) (hr : (r.map Prod.fst).Nodup) :
    dictUpdate d r = d ++ r := by
  induction r generalizing d with
  | nil => simp [dictUpdate]
  | cons kv rest ih =>
    obtain ⟨k, v⟩ := kv
    have h1 : hasKey d k = false := hd (k, v) (List.mem_cons_self _ _)
    have hk : k ∉ rest.map Prod.fst := by
      simpa using (List.nodup_cons.mp hr).1
    have hstep : dictUpdate d ((k, v) :: rest) = dictUpdate (d ++ [(k, v)]) rest := by
      simp [dictUpdate, List.foldl_cons, setKey_of_not_hasKey d k v h1]
    rw [hstep, ih (d ++ [(k, v)])]
    · simp
    · intro kv' hkv'
      rw [hasKey_append]
      have h2 : hasKey d kv'.1 = false := hd kv' (List.mem_cons_of_mem _ hkv')
      have h3 : hasKey [(k, v)] kv'.1 = false := by
        have : k ≠ kv'.1 := by
          intro he
          exact hk (he ▸ List.mem_map_of_mem Prod.fst hkv')
        simp [hasKey, this]
      simp [h2, h3]
    · exact (List.nodup_cons.mp hr).2

theorem dictUpdate_nil (r : List (String × PyVal)) (hr : (r.map Prod.fst).Nodup) :
    dictUpdate [] r = r := by
  rw [dictUpdate_eq_append r [] (by intro kv _; rfl) hr]
  rfl

theorem ensureKey_of_hasKey (s : FactStore) (k : String) (h : hasKey s k = true) :
    ensureKey s k = s := by
  simp [ensureKey, h]

theorem ensureKey_of_not_hasKey (s : FactStore) (k : String) (h : hasKey s k = false) :
    ensureKey s k = setKey s k (.dict []) := by
  simp [ensureKey, h]

/-! ### Claims C1 and C10 -/

/-- Claim C1: merging a result under a capability key follows shallow-union
semantics: an absent key receives the result itself (a mapping payload with
duplicate-free field names, as any Python dict, is stored as is; a non-mapping
payload likewise); when the key holds a mapping and the result is a mapping, the
stored mapping is updated per key; otherwise the result replaces the stored
value wholesale.  Concretely, producing mapping payloads under capability C
twice via agents agM1 then agM2 leaves C bound to the field-wise union, and a
non-mapping second payload (agM2n) fully replaces the first. -/
theorem c1_merge_shallow_union :
    (∀ (s : FactStore) (k : String) (r' : List (String × PyVal)),
      hasKey s k = false → (r'.map Prod.fst).Nodup →
      lookupKey (mergeCap s k (.dict r')) k = some (.dict r')) ∧
    (∀ (s : FactStore) (k : String) (r : PyVal),
      hasKey s k = false → (∀ r', r ≠ .dict r') →
      lookupKey (mergeCap s k r) k = some r) ∧
    (∀ (s : FactStore) (k : String) (d r' : List (String × PyVal)),
      lookupKey s k = some (.dict d) →
      lookupKey (mergeCap s k (.dict r')) k = some (.dict (dictUpdate d r'))) ∧
    (∀ (s : FactStore) (k : String) (r : PyVal),
      hasKey s k = true →
      ((∀ d, lookupKey s k ≠ some (.dict d)) ∨ (∀ r', r ≠ .dict r')) →
      lookupKey (mergeCap s k r) k = some r) ∧
    (∃ st, execute [agM1, agM2] [] 20 = .ok st ∧
      lookupKey st.shared "C" = some (.dict [("a", .int 1), ("b", .int 2)])) ∧
    (∃ st, execute [agM1, agM2n] [] 20 = .ok st ∧
      lookupKey st.shared "C" = some (.int 7)) := by
  refine ⟨?_, ?_, ?_, ?_, ⟨_, rfl, rfl⟩, ⟨_, rfl, rfl⟩⟩
  · intro s k r' hk hnd
    have he : ensureKey s k = setKey s k (.dict []) := ensureKey_of_not_hasKey s k hk
    unfold mergeCap
    rw [he, lookupKey_setKey_self s k (.dict [])]
    simp only []
    rw [lookupKey_setKey_self, dictUpdate_nil r' hnd]
  · intro s k r hk hr
    have he : ensureKey s k = setKey s k (.dict []) := ensureKey_of_not_hasKey s k hk
    unfold mergeCap
    rw [he, lookupKey_setKey_self s k (.dict [])]
    cases r with
    | dict r' => exact absurd rfl (hr r')
    | none => simp only []; rw [lookupKey_setKey_self]
    | int n => simp only []; rw [lookupKey_setKey_self]
    | str t => simp only []; rw [lookupKey_setKey_self]
    | list l => simp only []; rw [lookupKey_setKey_self]
  · intro s k d r' hl
    have hk : hasKey s k = true := by rw [hasKey_eq_isSome, hl]; rfl
    have he : ensureKey s k = s := ensureKey_of_hasKey s k hk
    unfold mergeCap
    rw [he, hl]
    simp only []
    rw [lookupKey_setKey_self]
  · intro s k r hk hcase
    have he : ensureKey s k = s := ensureKey_of_hasKey s k hk
    unfold mergeCap
    rw [he]
    cases hl : lookupKey s k with
    | none =>
      rw [hasKey_eq_isSome, hl] at hk
      cases hk
    | some v =>
      cases v with
      | dict d =>
        cases r with
        | dict r' =>
          rcases hcase with hcase | hcase
          · exact absurd hl (hcase d)
          · exact absurd rfl (hcase r')
        | none => simp only []; rw [lookupKey_setKey_self]
        | int n => simp only []; rw [lookupKey_setKey_self]
        | str t => simp only []; rw [lookupKey_setKey_self]
        | list l => simp only []; rw [lookupKey_setKey_self]
      | none => cases r <;> (simp only []; rw [lookupKey_setKey_self])
      | int n => cases r <;> (simp only []; rw [lookupKey_setKey_self])
      | str t => cases r <;> (simp only []; rw [lookupKey_setKey_self])
      | list l => cases r <;> (simp only []; rw [lookupKey_setKey_self])

/-- Witness for C1 at concrete inputs: an absent key stores the mapping payload
as is; a per-key update of a present mapping; wholesale replacement when the
stored value is not a mapping. -/
theorem c1_merge_shallow_union_witness :
    lookupKey (mergeCap [] "C" (.dict [("a", .int 1)])) "C"
        = some (.dict [("a", .int 1)]) ∧
    lookupKey (mergeCap [("C", .dict [("a", .int 1)])] "C" (.dict [("b", .int 2)])) "C"
        = some (.dict [("a", .int 1), ("b", .int 2)]) ∧
    lookupKey (mergeCap [("C", .int 7)] "C" (.str "s")) "C" = some (.str "s") :=
  ⟨c1_merge_shallow_union.1 [] "C" [("a", .int 1)] rfl (by decide),
   c1_merge_shallow_union.2.2.1 [("C", .dict [("a", .int 1)])] "C"
     [("a", .int 1)] [("b", .int 2)] rfl,
   c1_merge_shallow_union.2.2.2.1 [("C", .int 7)] "C" (.str "s") rfl
     (Or.inl (fun d h => by cases h))⟩

/-- Claim C10: merging a result writes only the declared
capability keys; every other key maps to the same value after the merge as
before, whatever field names the result payload contains. -/
theorem c10_merge_frame :
    ∀ (a : Agent) (s : FactStore) (r : PyVal) (k : String),
      k ∉ a.capabilities →
      lookupKey (mergeAgentCaps a.capabilities s r) k = lookupKey s k :=
  fun a s r k h => lookupKey_mergeAgentCaps_frame a.capabilities s r k h

/-- Witness for C10: a payload whose field name collides with an unrelated
fact-store key leaves that key unchanged. -/
theorem c10_merge_frame_witness :
    "y" ∉ agM1.capabilities ∧
    lookupKey (mergeAgentCaps agM1.capabilities [("y", .int 5)]
      (.dict [("y", .int 9)])) "y" = lookupKey [("y", .int 5)] "y" :=
  ⟨by decide, c10_merge_frame agM1 [("y", .int 5)] (.dict [("y", .int 9)]) "y" (by decide)⟩

/-! ### Lemmas about findReadyAgents and getAgent -/

theorem mem_findReadyAgents (agents : List Agent) (ex : List String) (s : FactStore)
    (id : String) :
    id ∈ findReadyAgents agents ex s ↔
      ∃ a ∈ agents, a.agent_id = id ∧ ex.contains id = false ∧
        canExecute a s = true := by
  simp only [findReadyAgents, List.mem_map, List.mem_filter, Bool.and_eq_true,
    Bool.not_eq_true']
  constructor
  · rintro ⟨a, ⟨ha, hex, hce⟩, hid⟩
    exact ⟨a, ha, hid, hid ▸ hex, hce⟩
  · rintro ⟨a, ha, hid, hex, hce⟩
    exact ⟨a, ⟨ha, hid ▸ hex, hce⟩, hid⟩

theorem findReadyAgents_sublist (agents : List Agent) (ex : List String)
    (s : FactStore) :
    (findReadyAgents agents ex s).Sublist (agents.map (fun a => a.agent_id)) := by
  unfold findReadyAgents
  exact List.Sublist.map _ (List.filter_sublist agents)

theorem findReadyAgents_nodup (agents : List Agent) (ex : List String) (s : FactStore)
    (hU : (agents.map (fun a => a.agent_id)).Nodup) :
    (findReadyAgents agents ex s).Nodup :=
  List.Nodup.sublist (findReadyAgents_sublist agents ex s) hU

theorem getAgent_mem_id (agents : List Agent) (id : String) (a : Agent)
    (h : getAgent agents id = some a) : a ∈ agents ∧ a.agent_id = id := by
  refine ⟨List.mem_of_find?_eq_some h, ?_⟩
  have h2 := List.find?_some h
  simpa using h2

theorem agent_id_inj (agents : List Agent)
    (hU : (agents.map (fun a => a.agent_id)).Nodup) (a b : Agent)
    (ha : a ∈ agents) (hb : b ∈ agents) (hid : a.agent_id = b.agent_id) : a = b := by
  induction agents with
  | nil => cases ha
  | cons hd tl ih =>
    rw [List.map_cons, List.nodup_cons] at hU
    rcases List.mem_cons.mp ha with ha' | ha' <;>
      rcases List.mem_cons.mp hb with hb' | hb'
    · exact ha'.trans hb'.symm
    · subst ha'
      exact absurd (hid ▸ List.mem_map_of_mem (fun a => a.agent_id) hb') hU.1
    · subst hb'
      exact absurd (hid ▸ List.mem_map_of_mem (fun a => a.agent_id) ha') hU.1
    · exact ih hU.2 ha' hb'

theorem getAgent_eq_self (agents : List Agent)
    (hU : (agents.map (fun a => a.agent_id)).Nodup) (a : Agent) (ha : a ∈ agents) :
    getAgent agents a.agent_id = some a := by
  cases h : getAgent agents a.agent_id with
  | none =>
    have := List.find?_eq_none.mp h a ha
    simp at this
  | some b =>
    obtain ⟨hb, hid⟩ := getAgent_mem_id agents a.agent_id b h
    rw [agent_id_inj agents hU b a hb ha hid]

/-! ### Claim C4 -/

/-- Claim C4: the readiness evaluation is a pure function of the task list, the
executed set and the fact store; it returns, in registration order (a sublist of
the registered id order, hence no other tie-breaking), exactly the ids of tasks
not yet executed whose required capability keys are all present in the fact
store. -/
theorem c4_readiness :
    ∀ (agents : List Agent) (executed : List String) (shared : FactStore),
      (agents.map (fun a => a.agent_id)).Nodup →
      (findReadyAgents agents executed shared).Sublist
          (agents.map (fun a => a.agent_id)) ∧
      ∀ a ∈ agents,
        (a.agent_id ∈ findReadyAgents agents executed shared ↔
          (a.agent_id ∉ executed ∧ ∀ d ∈ a.dependencies, hasKey shared d = true)) := by
  intro agents executed shared hU
  refine ⟨findReadyAgents_sublist agents executed shared, ?_⟩
  intro a ha
  rw [mem_findReadyAgents]
  constructor
  · rintro ⟨b, hb, hid, hex, hce⟩
    have hba : b = a := agent_id_inj agents hU b a hb ha hid
    subst hba
    refine ⟨?_, ?_⟩
    · intro hmem
      simp at hex
      exact hex hmem
    · exact (List.all_eq_true.mp hce)
  · rintro ⟨hex, hdeps⟩
    refine ⟨a, ha, rfl, ?_, ?_⟩
    · simpa using hex
    · exact List.all_eq_true.mpr hdeps

/-- Witness for C4 on a concrete task set: P (no requirements) is ready, and the
ready list respects registration order. -/
theorem c4_readiness_witness :
    (findReadyAgents [agP, agQ] [] []).Sublist
        ([agP, agQ].map (fun a => a.agent_id)) ∧
    ("P" ∈ findReadyAgents [agP, agQ] [] [] ↔
      ("P" ∉ ([] : List String) ∧ ∀ d ∈ agP.dependencies, hasKey [] d = true)) :=
  ⟨(c4_readiness [agP, agQ] [] [] (by decide)).1,
   (c4_readiness [agP, agQ] [] [] (by decide)).2 agP (List.mem_cons_self _ _)⟩

/-! ### Chain helpers for the monotone key-set invariants -/

theorem chain_snoc (xs : List FactStore) (a b : FactStore)
    (h : List.Chain' KeysMono (xs ++ [a])) (hab : KeysMono a b) :
    List.Chain' KeysMono (xs ++ [a, b]) := by
  have he : xs ++ [a, b] = (xs ++ [a]) ++ [b] := by simp
  rw [he]
  refine List.Chain'.append h (List.chain'_singleton b) ?_
  intro x hx y hy
  rw [List.getLast?_concat] at hx
  simp only [List.head?_cons, Option.mem_def, Option.some.injEq] at hx hy
  subst hx
  subst hy
  exact hab

theorem chain_replace_last (xs : List FactStore) (a b : FactStore)
    (h : List.Chain' KeysMono (xs ++ [a])) (hab : KeysMono a b) :
    List.Chain' KeysMono (xs ++ [b]) := by
  rw [List.chain'_append] at h ⊢
  obtain ⟨h1, _, hl⟩ := h
  refine ⟨h1, List.chain'_singleton b, ?_⟩
  intro x hx y hy
  simp only [List.head?_cons, Option.mem_def, Option.some.injEq] at hy
  subst hy
  exact keysMono_trans (hl x hx a rfl) hab

theorem chain_nat_snoc (xs : List Nat) (n : Nat)
    (h : List.Chain' (fun m n => m ≤ n) xs) (hb : ∀ x ∈ xs, x ≤ n) :
    List.Chain' (fun m n => m ≤ n) (xs ++ [n]) := by
  refine List.Chain'.append h (List.chain'_singleton n) ?_
  intro x hx y hy
  simp only [List.head?_cons, Option.mem_def, Option.some.injEq] at hy
  subst hy
  exact hb x (List.mem_of_mem_getLast? hx)

theorem nodup_snoc {α : Type} (l : List α) (x : α) (h : l.Nodup) (hx : x ∉ l) :
    (l ++ [x]).Nodup := by
  simp [List.nodup_append, h, hx]

theorem canExecute_of_truthy (a : Agent) (s : FactStore) (r : PyVal)
    (hae : agentExecute a s = .ok r) (ht : truthy r = true) :
    canExecute a s = true := by
  unfold agentExecute at hae
  split at hae
  · assumption
  · cases hae
    cases ht

/-! ### Preservation of the invariant by the elementary scheduler steps -/

theorem inv_obs_append {agents : List Agent} {init : FactStore} {I : Nat}
    {st : OrchState} (hInv : Inv agents init I st) (n : Nat) (id : String) :
    Inv agents init I { st with obs := st.obs ++ [(n, id, st.shared)] } := by
  obtain ⟨h1, h2, h3, h4, h5, h6, h7, h8, h9, h10, h11, h12⟩ := hInv
  refine ⟨h1, h2, h3, h4, h5, h6, h7, h8, ?_, h10, h11, h12⟩
  simp only [List.map_append, List.map_cons, List.map_nil]
  have he : st.obs.map (fun o => o.2.2) ++ [st.shared] ++ [st.shared]
      = st.obs.map (fun o => o.2.2) ++ [st.shared, st.shared] := by simp
  have := chain_snoc (st.obs.map (fun o => o.2.2)) st.shared st.shared h9
    (keysMono_refl st.shared)
  simpa using this

theorem inv_fail_append {agents : List Agent} {init : FactStore} {I : Nat}
    {st : OrchState} (hInv : Inv agents init I st) (id e : String) :
    Inv agents init I { st with log := st.log ++ [failEntry I id e] } := by
  obtain ⟨h1, h2, h3, h4, h5, h6, h7, h8, h9, h10, h11, h12⟩ := hInv
  refine ⟨h1, h2, h3, h4, ?_, ?_, ?_, ?_, h9, h10, h11, h12⟩
  · intro en hen hsucc
    rcases List.mem_append.mp hen with hen | hen
    · exact h5 en hen hsucc
    · rw [List.mem_singleton.mp hen] at hsucc
      cases hsucc
  · intro en hen
    rcases List.mem_append.mp hen with hen | hen
    · exact h6 en hen
    · rw [List.mem_singleton.mp hen]
      refine ⟨fun hs => ?_, fun _ => ⟨rfl, rfl, rfl⟩⟩
      cases hs
  · simp only [List.map_append, List.map_cons, List.map_nil]
    exact chain_nat_snoc _ I h7 (by
      intro x hx
      obtain ⟨en, hen, hx'⟩ := List.mem_map.mp hx
      exact hx' ▸ h8 en hen)
  · intro en hen
    rcases List.mem_append.mp hen with hen | hen
    · exact h8 en hen
    · rw [List.mem_singleton.mp hen]
      exact le_refl I

theorem inv_success_step {agents : List Agent} {init : FactStore} {I : Nat}
    {st : OrchState} (hU : (agents.map (fun a => a.agent_id)).Nodup)
    (hInv : Inv agents init I st) (a : Agent) (id : String) (r : PyVal)
    (hga : getAgent agents id = some a) (hid : id ∉ st.executed)
    (hce : canExecute a st.shared = true) :
    Inv agents init I { st with
      shared := mergeAgentCaps a.capabilities st.shared r,
      executed := st.executed ++ [id],
      log := st.log ++ [successEntry I id a.capabilities] } := by
  obtain ⟨haMem, haId⟩ := getAgent_mem_id agents id a hga
  obtain ⟨h1, h2, h3, h4, h5, h6, h7, h8, h9, h10, h11, h12⟩ := hInv
  refine ⟨?_, ?_, ?_, ?_, ?_, ?_, ?_, ?_, ?_, ?_, ?_, ?_⟩
  · exact keysMono_trans h1 (keysMono_mergeAgentCaps a.capabilities st.shared r)
  · intro id' hid'
    rcases List.mem_append.mp hid' with hmem | hmem
    · obtain ⟨a', hga', hcaps⟩ := h2 id' hmem
      exact ⟨a', hga', fun c hc =>
        hasKey_mergeAgentCaps_mono a.capabilities st.shared r c (hcaps c hc)⟩
    · rw [List.mem_singleton.mp hmem]
      exact ⟨a, hga, fun c hc =>
        hasKey_mergeAgentCaps_of_mem a.capabilities st.shared r c hc⟩
  · exact nodup_snoc st.executed id h3 hid
  · intro c hc
    rcases hasKey_mergeAgentCaps_rev a.capabilities st.shared r c hc with hc' | hc'
    · right
      exact ⟨a, haMem, by
        rw [haId]; exact List.mem_append.mpr (Or.inr (List.mem_singleton.mpr rfl)), hc'⟩
    · rcases h4 c hc' with hi | ⟨b, hb, hbid, hbc⟩
      · exact Or.inl hi
      · exact Or.inr ⟨b, hb, List.mem_append.mpr (Or.inl hbid), hbc⟩
  · intro en hen hsucc
    rcases List.mem_append.mp hen with hen | hen
    · obtain ⟨caps, hcaps, hpres⟩ := h5 en hen hsucc
      exact ⟨caps, hcaps, fun c hc =>
        hasKey_mergeAgentCaps_mono a.capabilities st.shared r c (hpres c hc)⟩
    · rw [List.mem_singleton.mp hen]
      exact ⟨a.capabilities, rfl, fun c hc =>
        hasKey_mergeAgentCaps_of_mem a.capabilities st.shared r c hc⟩
  · intro en hen
    rcases List.mem_append.mp hen with hen | hen
    · exact h6 en hen
    · rw [List.mem_singleton.mp hen]
      refine ⟨fun _ => ⟨rfl, rfl, rfl⟩, fun hs => ?_⟩
      cases hs
  · simp only [List.map_append, List.map_cons, List.map_nil]
    exact chain_nat_snoc _ I h7 (by
      intro x hx
      obtain ⟨en, hen, hx'⟩ := List.mem_map.mp hx
      exact hx' ▸ h8 en hen)
  · intro en hen
    rcases List.mem_append.mp hen with hen | hen
    · exact h8 en hen
    · rw [List.mem_singleton.mp hen]
      exact le_refl I
  · exact chain_replace_last _ _ _ h9
      (keysMono_mergeAgentCaps a.capabilities st.shared r)
  · exact chain_replace_last _ _ _ h10
      (keysMono_mergeAgentCaps a.capabilities st.shared r)
  · intro pre rd post htr id' hid'
    obtain ⟨a', hga', hcaps⟩ := h11 pre rd post htr id' hid'
    refine ⟨a', hga', fun c hc => ?_⟩
    cases post with
    | nil => exact hasKey_mergeAgentCaps_mono a.capabilities st.shared r c (hcaps c hc)
    | cons r2 post' => exact hcaps c hc
  · intro id' hid'
    rcases List.mem_append.mp hid' with hmem | hmem
    · exact h12 id' hmem
    · rw [List.mem_singleton.mp hmem]
      refine ⟨a, haMem, haId, ?_⟩
      intro hbl
      cases hbl with
      | mk _ c _ hcdep hcinit hprod =>
        have hpres : hasKey st.shared c = true :=
          List.all_eq_true.mp hce c hcdep
        rcases h4 c hpres with hi | ⟨b, hbmem, hbexec, hbcap⟩
        · rw [hcinit] at hi
          cases hi
        · obtain ⟨b', hb'mem, hb'id, hb'nb⟩ := h12 b.agent_id hbexec
          have hbb : b' = b := agent_id_inj agents hU b' b hb'mem hbmem hb'id
          exact hb'nb (hbb ▸ hprod b hbmem hbcap)

/-- The round body preserves the composite invariant, for both the normal and
the raising outcome, whenever the processed ids are duplicate-free and not yet
executed. -/
theorem runRound_inv (agents : List Agent) (init : FactStore) (I : Nat)
    (hU : (agents.map (fun a => a.agent_id)).Nodup) :
    ∀ (rl : List String) (st : OrchState) (etr : List String),
      Inv agents init I st → rl.Nodup → (∀ id ∈ rl, id ∉ st.executed) →
      Inv agents init I (rrState (runRound agents I rl st etr)) := by
  intro rl
  induction rl with
  | nil => intro st etr hInv _ _; exact hInv
  | cons id rest ih =>
    intro st etr hInv hnd hnexec
    have hndr : rest.Nodup := (List.nodup_cons.mp hnd).2
    have hidr : id ∉ rest := (List.nodup_cons.mp hnd).1
    cases hga : getAgent agents id with
    | none =>
      simp only [runRound, hga]
      exact ih st etr hInv hndr
        (fun id' h => hnexec id' (List.mem_cons_of_mem id h))
    | some a =>
      cases hae : agentExecute a st.shared with
      | error e =>
        simp only [runRound, hga, hae]
        exact inv_fail_append (inv_obs_append hInv I id) id e
      | ok r =>
        simp only [runRound, hga, hae]
        by_cases ht : truthy r = true
        · rw [if_pos ht]
          have hce : canExecute a st.shared = true := canExecute_of_truthy a _ r hae ht
          have hinv1 :=
            inv_success_step hU (inv_obs_append hInv I id) a id r hga
              (hnexec id (List.mem_cons_self id rest)) hce
          exact ih _ (etr ++ [id]) hinv1 hndr (by
            intro id' h
            simp only [List.mem_append, List.mem_singleton]
            rintro (hmem | hmem)
            · exact hnexec id' (List.mem_cons_of_mem id h) hmem
            · exact hidr (hmem ▸ h))
        · rw [if_neg ht]
          exact ih _ etr (inv_obs_append hInv I id) hndr
            (fun id' h => hnexec id' (List.mem_cons_of_mem id h))

/-- What a normally-returning round body did: it extended executed and the
executed_this_round list by one common suffix of processed ids, left the trace
alone, and only grew the key set of the shared state. -/
theorem runRound_ok_delta (agents : List Agent) (I : Nat) :
    ∀ (rl : List String) (st : OrchState) (etr : List String) (st' : OrchState)
      (etr' : List String),
      runRound agents I rl st etr = .ok (st', etr') →
      ∃ l, st'.executed = st.executed ++ l ∧ etr' = etr ++ l ∧
        (∀ id ∈ l, id ∈ rl) ∧ st'.trace = st.trace ∧
        KeysMono st.shared st'.shared := by
  intro rl
  induction rl with
  | nil =>
    intro st etr st' etr' h
    simp only [runRound, Except.ok.injEq, Prod.mk.injEq] at h
    obtain ⟨h1, h2⟩ := h
    subst h1
    subst h2
    exact ⟨[], by simp, by simp, by simp, rfl, keysMono_refl st.shared⟩
  | cons id rest ih =>
    intro st etr st' etr' h
    cases hga : getAgent agents id with
    | none =>
      simp only [runRound, hga] at h
      obtain ⟨l, h1, h2, h3, h4, h5⟩ := ih st etr st' etr' h
      exact ⟨l, h1, h2, fun id' hid' => List.mem_cons_of_mem id (h3 id' hid'), h4, h5⟩
    | some a =>
      cases hae : agentExecute a st.shared with
      | error e =>
        simp only [runRound, hga, hae] at h
        cases h
      | ok r =>
        simp only [runRound, hga, hae] at h
        by_cases ht : truthy r = true
        · rw [if_pos ht] at h
          obtain ⟨l, h1, h2, h3, h4, h5⟩ := ih _ _ st' etr' h
          refine ⟨id :: l, ?_, ?_, ?_, h4, ?_⟩
          · rw [h1]; simp
          · rw [h2]; simp
          · intro id' hid'
            rcases List.mem_cons.mp hid' with hid' | hid'
            · exact hid' ▸ List.mem_cons_self id rest
            · exact List.mem_cons_of_mem id (h3 id' hid')
          · exact keysMono_trans
              (keysMono_mergeAgentCaps a.capabilities st.shared r) h5
        · rw [if_neg ht] at h
          obtain ⟨l, h1, h2, h3, h4, h5⟩ := ih _ _ st' etr' h
          exact ⟨l, h1, h2, fun id' hid' => List.mem_cons_of_mem id (h3 id' hid'),
            h4, h5⟩

/-- What a raising round body did: it appended zero or more success entries and
then one failure entry to the log, recorded the failing invocation as the last
observation, extended executed by ids of the processed prefix, left the trace
alone, and only grew the key set. -/
theorem runRound_error_shape (agents : List Agent) (I : Nat) :
    ∀ (rl : List String) (st : OrchState) (etr : List String) (st' : OrchState),
      runRound agents I rl st etr = .error st' →
      ∃ id e pre ob sh lex,
        st'.log = st.log ++ pre ++ [failEntry I id e] ∧
        (∀ en ∈ pre, en.success = true) ∧
        st'.obs = st.obs ++ ob ++ [(I, id, sh)] ∧
        st'.trace = st.trace ∧
        st'.executed = st.executed ++ lex ∧
        id ∈ rl ∧ KeysMono st.shared st'.shared := by
  intro rl
  induction rl with
  | nil =>
    intro st etr st' h
    simp only [runRound] at h
    cases h
  | cons id rest ih =>
    intro st etr st' h
    cases hga : getAgent agents id with
    | none =>
      simp only [runRound, hga] at h
      obtain ⟨i, e, pre, ob, sh, lex, h1, h2, h3, h4, h5, h6, h7⟩ := ih st etr st' h
      exact ⟨i, e, pre, ob, sh, lex, h1, h2, h3, h4, h5,
        List.mem_cons_of_mem id h6, h7⟩
    | some a =>
      cases hae : agentExecute a st.shared with
      | error e =>
        simp only [runRound, hga, hae, Except.error.injEq] at h
        subst h
        refine ⟨id, e, [], [], st.shared, [], by simp, by simp, by simp, rfl,
          by simp, List.mem_cons_self id rest, keysMono_refl st.shared⟩
      | ok r =>
        simp only [runRound, hga, hae] at h
        by_cases ht : truthy r = true
        · rw [if_pos ht] at h
          obtain ⟨i, e, pre, ob, sh, lex, h1, h2, h3, h4, h5, h6, h7⟩ := ih _ _ st' h
          refine ⟨i, e, successEntry I id a.capabilities :: pre,
            (I, id, st.shared) :: ob, sh, id :: lex, ?_, ?_, ?_, h4, ?_,
            List.mem_cons_of_mem id h6, ?_⟩
          · rw [h1]; simp
          · intro en hen
            rcases List.mem_cons.mp hen with hen | hen
            · rw [hen]; rfl
            · exact h2 en hen
          · rw [h3]; simp
          · rw [h5]; simp
          · exact keysMono_trans
              (keysMono_mergeAgentCaps a.capabilities st.shared r) h7
        · rw [if_neg ht] at h
          obtain ⟨i, e, pre, ob, sh, lex, h1, h2, h3, h4, h5, h6, h7⟩ := ih _ _ st' h
          exact ⟨i, e, pre, (I, id, st.shared) :: ob, sh, lex, by simp [h1],
            h2, by simp [h3], h4, by simp [h5],
            List.mem_cons_of_mem id h6, h7⟩

/-! ### Loop-level invariant machinery -/

theorem snoc_decomp {α : Type} :
    ∀ (pre : List α) (l : List α) (x r : α) (post : List α),
      l ++ [x] = pre ++ r :: post → post ≠ [] →
      ∃ post', post = post' ++ [x] ∧ l = pre ++ r :: post'
  | [], l, x, r, post, h, hpost => by
    cases l with
    | nil =>
      simp only [List.nil_append] at h
      cases h
      simp at hpost
    | cons hd tl =>
      simp only [List.cons_append, List.nil_append, List.cons.injEq] at h
      exact ⟨tl, h.2.symm, by rw [h.1]; rfl⟩
  | p :: pre', l, x, r, post, h, hpost => by
    cases l with
    | nil =>
      simp only [List.nil_append, List.cons_append, List.cons.injEq] at h
      have := h.2
      cases pre' with
      | nil => simp at this
      | cons q pre'' => simp at this
    | cons hd tl =>
      simp only [List.cons_append, List.cons.injEq] at h
      obtain ⟨post', hp, hl⟩ := snoc_decomp pre' tl x r post h.2 hpost
      exact ⟨post', hp, by rw [h.1, hl]; rfl⟩

theorem snoc_eq_snoc {α : Type} (l p : List α) (x y : α)
    (h : l ++ [x] = p ++ [y]) : l = p ∧ x = y := by
  have hl : ([x] : List α).length = ([y] : List α).length := rfl
  obtain ⟨h1, h2⟩ := List.append_inj' h hl
  exact ⟨h1, by simpa using h2⟩

theorem inv_weaken {agents : List Agent} {init : FactStore} {I J : Nat}
    {st : OrchState} (hInv : Inv agents init I st) (hIJ : I ≤ J) :
    Inv agents init J st := by
  obtain ⟨h1, h2, h3, h4, h5, h6, h7, h8, h9, h10, h11, h12⟩ := hInv
  exact ⟨h1, h2, h3, h4, h5, h6, h7,
    fun e he => le_trans (h8 e he) hIJ, h9, h10, h11, h12⟩

/-- Appending the ghost round record at the end of a round preserves the
invariant: the recorded start state is the previous fact store, and every id
executed this round is in the executed set of the post-round state. -/
theorem inv_round_append {agents : List Agent} {init : FactStore} {I : Nat}
    {stStart st' : OrchState}
    (hInvStart : Inv agents init I stStart) (hInv' : Inv agents init I st')
    (htr : st'.trace = stStart.trace)
    (hmono : KeysMono stStart.shared st'.shared)
    (ready etr : List String)
    (hetr : ∀ id ∈ etr, id ∈ st'.executed) :
    Inv agents init I
      { st' with trace := st'.trace ++ [⟨stStart.shared, ready, etr⟩] } := by
  obtain ⟨h1, h2, h3, h4, h5, h6, h7, h8, h9, h10, h11, h12⟩ := hInv'
  refine ⟨h1, h2, h3, h4, h5, h6, h7, h8, h9, ?_, ?_, h12⟩
  · rw [htr]
    simp only [List.map_append, List.map_cons, List.map_nil]
    have hc := chain_snoc (stStart.trace.map (fun t => t.startShared))
      stStart.shared st'.shared hInvStart.traceChain hmono
    simpa using hc
  · intro pre r post hdec id hid
    rw [htr] at hdec
    cases hp : post with
    | nil =>
      rw [hp] at hdec
      obtain ⟨hpre, hr⟩ := snoc_eq_snoc stStart.trace pre
        (⟨stStart.shared, ready, etr⟩ : RoundInfo) r hdec
      rw [← hr] at hid
      obtain ⟨a, hga, hcaps⟩ := h2 id (hetr id hid)
      exact ⟨a, hga, hcaps⟩
    | cons r2 post'' =>
      rw [hp] at hdec
      obtain ⟨post', hpost, hl⟩ := snoc_decomp pre stStart.trace
        (⟨stStart.shared, ready, etr⟩ : RoundInfo) r (r2 :: post'') hdec
        (by simp)
      have hold := hInvStart.roundCaps pre r post' hl id hid
      obtain ⟨a, hga, hcaps⟩ := hold
      refine ⟨a, hga, fun c hc => ?_⟩
      show hasKey r2.startShared c = true
      cases post' with
      | nil =>
        simp only [List.nil_append, List.cons.injEq] at hpost
        rw [hpost.1]
        exact hcaps c hc
      | cons r3 post3 =>
        simp only [List.cons_append, List.cons.injEq] at hpost
        rw [hpost.1]
        exact hcaps c hc

/-- The invariant holds at the start state of a run. -/
theorem inv_init (agents : List Agent) (init : FactStore) :
    Inv agents init 0
      { shared := init, executed := [], log := [], obs := [], trace := [] } := by
  refine ⟨fun c h => h, ?_, List.nodup_nil, ?_, ?_, ?_, ?_, ?_, ?_, ?_, ?_, ?_⟩
  · intro id hid; cases hid
  · intro c hc; exact Or.inl hc
  · intro e he; cases he
  · intro e he; cases he
  · simp
  · intro e he; cases he
  · simp
  · simp
  · intro pre r post hdec
    cases pre <;> simp at hdec
  · intro id hid; cases hid

theorem findReady_not_executed (agents : List Agent) (ex : List String)
    (s : FactStore) (id : String) (h : id ∈ findReadyAgents agents ex s) :
    id ∉ ex := by
  rw [mem_findReadyAgents] at h
  obtain ⟨a, _, _, hex, _⟩ := h
  intro hmem
  simp at hex
  exact hex hmem

/-- The while loop preserves the composite invariant to its final state, for
both the settled and the raising outcome. -/
theorem loop_inv (agents : List Agent) (init : FactStore)
    (hU : (agents.map (fun a => a.agent_id)).Nodup) :
    ∀ (fuel iter : Nat) (st : OrchState),
      Inv agents init iter st →
      Inv agents init (iter + fuel) (outState (loop agents iter fuel st)) := by
  intro fuel
  induction fuel with
  | zero => intro iter st hInv; exact hInv
  | succ fuel ih =>
    intro iter st hInv
    have hInv1 : Inv agents init (iter + 1) st :=
      inv_weaken hInv (Nat.le_succ iter)
    simp only [loop]
    by_cases hre : (findReadyAgents agents st.executed st.shared).isEmpty = true
    · rw [if_pos hre]
      simp only [outState]
      have := inv_round_append hInv1 hInv1 rfl (keysMono_refl st.shared)
        (findReadyAgents agents st.executed st.shared) [] (by intro id hid; cases hid)
      exact inv_weaken this (by omega)
    · rw [if_neg hre]
      have hnd : (findReadyAgents agents st.executed st.shared).Nodup :=
        findReadyAgents_nodup agents st.executed st.shared hU
      have hnx : ∀ id ∈ findReadyAgents agents st.executed st.shared,
          id ∉ st.executed :=
        fun id hid => findReady_not_executed agents st.executed st.shared id hid
      have hrr := runRound_inv agents init (iter + 1) hU
        (findReadyAgents agents st.executed st.shared) st [] hInv1 hnd hnx
      cases hres : runRound agents (iter + 1)
          (findReadyAgents agents st.executed st.shared) st [] with
      | error st' =>
        rw [hres] at hrr
        simp only [outState]
        exact inv_weaken hrr (by omega)
      | ok p =>
        obtain ⟨st', etr⟩ := p
        rw [hres] at hrr
        obtain ⟨l, hexec, hetr, _, htrace, hmono⟩ :=
          runRound_ok_delta agents (iter + 1) _ st [] st' etr hres
        have hetrex : ∀ id ∈ etr, id ∈ st'.executed := by
          intro id hid
          rw [hetr] at hid
          simp only [List.nil_append] at hid
          rw [hexec]
          exact List.mem_append.mpr (Or.inr hid)
        have hst'' := inv_round_append hInv1 hrr htrace hmono
          (findReadyAgents agents st.executed st.shared) etr hetrex
        dsimp only
        by_cases hetre : etr.isEmpty = true
        · rw [if_pos hetre]
          simp only [outState]
          exact inv_weaken hst'' (by omega)
        · rw [if_neg hetre]
          have := ih (iter + 1) _ hst''
          have harith : iter + 1 + fuel = iter + (fuel + 1) := by omega
          rw [harith] at this
          exact this

/-- The composite invariant holds of the final state of every run. -/
theorem execute_inv (agents : List Agent) (init : FactStore) (m : Nat)
    (hU : (agents.map (fun a => a.agent_id)).Nodup) :
    Inv agents init m (outState (execute agents init m)) := by
  have := loop_inv agents init hU m 0
    { shared := init, executed := [], log := [], obs := [], trace := [] }
    (inv_init agents init)
  simpa [execute] using this

instance : IsTrans FactStore KeysMono :=
  ⟨fun _ _ _ h1 h2 => keysMono_trans h1 h2⟩

/-! ### Claim C8 -/

/-- Claim C8: fact-store keys are never removed.  Initially seeded keys persist
to the end of the run; the key sets of the successive fact-store snapshots
passed to each task, followed by the final store, grow pairwise monotonically;
and every capability key of every executed task is still present in the final
store, for the settled and the aborted outcome alike. -/
theorem c8_keys_monotone :
    ∀ (agents : List Agent) (init : FactStore) (m : Nat),
      (agents.map (fun a => a.agent_id)).Nodup →
      (∀ c, hasKey init c = true →
        hasKey (outState (execute agents init m)).shared c = true) ∧
      List.Pairwise KeysMono
        ((outState (execute agents init m)).obs.map (fun o => o.2.2) ++
          [(outState (execute agents init m)).shared]) ∧
      (∀ id ∈ (outState (execute agents init m)).executed,
        ∃ a, getAgent agents id = some a ∧
          ∀ c ∈ a.capabilities,
            hasKey (outState (execute agents init m)).shared c = true) := by
  intro agents init m hU
  have hInv := execute_inv agents init m hU
  exact ⟨hInv.initKeys, List.chain'_iff_pairwise.mp hInv.obsChain, hInv.execCaps⟩

/-- Witness for C8: in the P, Q scenario the executed tasks produced keys still
present at the end of the run. -/
theorem c8_keys_monotone_witness :
    ([agP, agQ].map (fun a => a.agent_id)).Nodup ∧
    (∀ id ∈ (outState (execute [agP, agQ] [] 20)).executed,
      ∃ a, getAgent [agP, agQ] id = some a ∧
        ∀ c ∈ a.capabilities,
          hasKey (outState (execute [agP, agQ] [] 20)).shared c = true) :=
  ⟨by decide, (c8_keys_monotone [agP, agQ] [] 20 (by decide)).2.2⟩

/-! ### Claim C5 -/

/-- Counterexample to claim C5 as stated: in the run with agents agM1 and agM2,
both invoked in round 1, the snapshot passed to agM2 already contains key C,
merged by agM1 in the same round, while the snapshot passed to agM1 (and the
recorded round start) does not: the fact store is mutated mid-round, and the
second task of the round does not observe the round-start snapshot. -/
theorem c5_counterexample :
    (outState (execute [agM1, agM2] [] 20)).obs.map
        (fun o => (o.1, o.2.1, hasKey o.2.2 "C")) =
      [(1, "M1", false), (1, "M2", true)] ∧
    (outState (execute [agM1, agM2] [] 20)).trace.map
        (fun t => hasKey t.startShared "C") = [false, true] := by
  exact ⟨rfl, rfl⟩

/-- Claim C5 (amended): the fact store is mutated immediately after each
successful task, so a later task of the same round observes the merges of the
earlier ones; however the recorded round-start snapshots grow monotonically,
and readiness for round n+1 is evaluated on a snapshot that already contains
every capability key merged by every task executed in round n. -/
theorem c5_round_snapshots :
    ∀ (agents : List Agent) (init : FactStore) (m : Nat) (st' : OrchState),
      (agents.map (fun a => a.agent_id)).Nodup →
      execute agents init m = .ok st' →
      List.Chain' KeysMono
        (st'.trace.map (fun t => t.startShared) ++ [st'.shared]) ∧
      (∀ pre r1 r2 post, st'.trace = pre ++ r1 :: r2 :: post →
        ∀ id ∈ r1.ranIds, ∃ a, getAgent agents id = some a ∧
          ∀ c ∈ a.capabilities, hasKey r2.startShared c = true) := by
  intro agents init m st' hU hexec
  have hInv := execute_inv agents init m hU
  have ho : outState (execute agents init m) = st' := by rw [hexec]; rfl
  rw [ho] at hInv
  refine ⟨hInv.traceChain, ?_⟩
  intro pre r1 r2 post hdec id hid
  have := hInv.roundCaps pre r1 (r2 :: post) hdec id hid
  obtain ⟨a, hga, hcaps⟩ := this
  exact ⟨a, hga, fun c hc => hcaps c hc⟩

/-- Witness for the amended C5 in the scenario with tasks P, Q: readiness for
round 2 was evaluated on a snapshot containing the key parsed produced in
round 1. -/
theorem c5_round_snapshots_witness :
    ∃ st' : OrchState, execute [agP, agQ] [] 20 = .ok st' ∧
      ∃ r1 r2 post, st'.trace = r1 :: r2 :: post ∧
        ∀ id ∈ r1.ranIds, ∃ a, getAgent [agP, agQ] id = some a ∧
          ∀ c ∈ a.capabilities, hasKey r2.startShared c = true := by
  refine ⟨_, rfl, _, _, _, rfl, ?_⟩
  exact (c5_round_snapshots [agP, agQ] [] 20 _ (by decide) rfl).2 [] _ _ _ rfl

/-! ### Claim C7 -/

/-- If every round recorded so far made progress, then in the final trace of a
settling loop every round but the last executed at least one task: the loop
stops at the first round that makes no progress instead of spinning to the
ceiling. -/
theorem loop_no_idle (agents : List Agent) :
    ∀ (fuel iter : Nat) (st st' : OrchState),
      (∀ r ∈ st.trace, r.ranIds ≠ []) →
      loop agents iter fuel st = .ok st' →
      ∀ pre r post, st'.trace = pre ++ r :: post → post ≠ [] → r.ranIds ≠ [] := by
  intro fuel
  induction fuel with
  | zero =>
    intro iter st st' hprog h pre r post hdec hpost
    simp only [loop, Except.ok.injEq] at h
    subst h
    exact hprog r (hdec ▸ List.mem_append.mpr (Or.inr (List.mem_cons_self r post)))
  | succ fuel ih =>
    intro iter st st' hprog h pre r post hdec hpost
    simp only [loop] at h
    by_cases hre : (findReadyAgents agents st.executed st.shared).isEmpty = true
    · rw [if_pos hre] at h
      simp only [Except.ok.injEq] at h
      subst h
      simp only at hdec
      obtain ⟨post', _, hl⟩ := snoc_decomp pre st.trace _ r post hdec hpost
      exact hprog r (hl ▸ List.mem_append.mpr (Or.inr (List.mem_cons_self r post')))
    · rw [if_neg hre] at h
      cases hres : runRound agents (iter + 1)
          (findReadyAgents agents st.executed st.shared) st [] with
      | error st2 =>
        rw [hres] at h
        cases h
      | ok p =>
        obtain ⟨st2, etr⟩ := p
        rw [hres] at h
        dsimp only at h
        obtain ⟨l, _, _, _, htrace, _⟩ :=
          runRound_ok_delta agents (iter + 1) _ st [] st2 etr hres
        by_cases hetre : etr.isEmpty = true
        · rw [if_pos hetre] at h
          simp only [Except.ok.injEq] at h
          subst h
          simp only at hdec
          rw [htrace] at hdec
          obtain ⟨post', _, hl⟩ := snoc_decomp pre st.trace _ r post hdec hpost
          exact hprog r (hl ▸ List.mem_append.mpr (Or.inr (List.mem_cons_self r post')))
        · rw [if_neg hetre] at h
          refine ih (iter + 1) _ st' ?_ h pre r post hdec hpost
          intro r' hr'
          rw [htrace] at hr'
          rcases List.mem_append.mp hr' with hr' | hr'
          · exact hprog r' hr'
          · rw [List.mem_singleton.mp hr']
            simp only
            intro he
            rw [he] at hetre
            exact hetre rfl

/-- Claim C7: a task transitively blocked on a capability that is neither
seeded nor produced by any live producer chain never executes and is reported
in the never-executed remainder; the loop settles at the first round that makes
no progress (every non-final round of the trace executed at least one task)
rather than exhausting the ceiling; and in the concrete ceiling scenario (task
X requiring the capability never-produced, ceiling 5) the run settles after
round 1 with X unsatisfied. -/
theorem c7_unsatisfied_settles :
    (∀ (agents : List Agent) (init : FactStore) (m : Nat),
      (agents.map (fun a => a.agent_id)).Nodup →
      ∀ b, Blocked agents init b →
        b.agent_id ∉ (outState (execute agents init m)).executed) ∧
    (∀ (agents : List Agent) (init : FactStore) (m : Nat) (st' : OrchState),
      execute agents init m = .ok st' →
      ∀ pre r post, st'.trace = pre ++ r :: post → post ≠ [] → r.ranIds ≠ []) ∧
    (∃ st, execute [agStuck] [] 5 = .ok st ∧ st.trace.length = 1 ∧
      st.executed = [] ∧ notExecuted [agStuck] st = ["X"]) := by
  refine ⟨?_, ?_, ⟨_, rfl, rfl, rfl, rfl⟩⟩
  · intro agents init m hU b hb hmem
    have hInv := execute_inv agents init m hU
    obtain ⟨b', hb'mem, hb'id, hb'nb⟩ := hInv.nbExec b.agent_id hmem
    have hbmem : b ∈ agents := by
      cases hb with
      | mk _ c hmem' _ _ _ => exact hmem'
    have : b' = b := agent_id_inj agents hU b' b hb'mem hbmem hb'id
    exact hb'nb (this ▸ hb)
  · intro agents init m st' hexec
    have := loop_no_idle agents m 0
      { shared := init, executed := [], log := [], obs := [], trace := [] } st'
      (by intro r hr; cases hr)
    exact this hexec

/-- Witness for C7: the concrete stuck task is blocked and indeed never
executes, and in the P, Q run the non-final rounds all made progress. -/
theorem c7_unsatisfied_settles_witness :
    (Blocked [agStuck] ([] : FactStore) agStuck ∧
      agStuck.agent_id ∉ (outState (execute [agStuck] [] 5)).executed) ∧
    (∃ st' r1 post, execute [agP, agQ] [] 20 = .ok st' ∧
      st'.trace = r1 :: post ∧ post ≠ [] ∧ r1.ranIds ≠ []) := by
  have hbl : Blocked [agStuck] ([] : FactStore) agStuck := by
    refine Blocked.mk agStuck "never-produced" (List.mem_cons_self _ _)
      (by decide) rfl ?_
    intro b hb hc
    rcases List.mem_cons.mp hb with hb | hb
    · subst hb
      exact absurd hc (by decide)
    · cases hb
  refine ⟨⟨hbl, c7_unsatisfied_settles.1 [agStuck] [] 5 (by decide) agStuck hbl⟩, ?_⟩
  refine ⟨_, _, _, rfl, rfl, by simp, ?_⟩
  exact c7_unsatisfied_settles.2.1 [agP, agQ] [] 20 _ rfl [] _ _ rfl (by simp)

/-! ### Claims C3 and C9 -/

/-- A normally-returning round body appends only success entries to the log. -/
theorem runRound_ok_log (agents : List Agent) (I : Nat) :
    ∀ (rl : List String) (st : OrchState) (etr : List String) (st' : OrchState)
      (etr' : List String),
      runRound agents I rl st etr = .ok (st', etr') →
      ∃ lo, st'.log = st.log ++ lo ∧ ∀ e ∈ lo, e.success = true := by
  intro rl
  induction rl with
  | nil =>
    intro st etr st' etr' h
    simp only [runRound, Except.ok.injEq, Prod.mk.injEq] at h
    obtain ⟨h1, _⟩ := h
    subst h1
    exact ⟨[], by simp, by intro e he; cases he⟩
  | cons id rest ih =>
    intro st etr st' etr' h
    cases hga : getAgent agents id with
    | none =>
      simp only [runRound, hga] at h
      exact ih st etr st' etr' h
    | some a =>
      cases hae : agentExecute a st.shared with
      | error e =>
        simp only [runRound, hga, hae] at h
        cases h
      | ok r =>
        simp only [runRound, hga, hae] at h
        by_cases ht : truthy r = true
        · rw [if_pos ht] at h
          obtain ⟨lo, h1, h2⟩ := ih _ _ st' etr' h
          refine ⟨successEntry I id a.capabilities :: lo, by simp [h1], ?_⟩
          intro e he
          rcases List.mem_cons.mp he with he | he
          · rw [he]; rfl
          · exact h2 e he
        · rw [if_neg ht] at h
          exact ih { st with obs := st.obs ++ [(I, id, st.shared)] } etr st' etr' h

/-- When the loop aborts, the final log is a run of success entries closed by
exactly one failure entry, and the last observation is the failing invocation. -/
theorem loop_error_shape (agents : List Agent) :
    ∀ (fuel iter : Nat) (st st' : OrchState),
      (∀ e ∈ st.log, e.success = true) →
      loop agents iter fuel st = .error st' →
      ∃ i id err pre, st'.log = pre ++ [failEntry i id err] ∧
        (∀ en ∈ pre, en.success = true) ∧
        ∃ ob sh, st'.obs = ob ++ [(i, id, sh)] := by
  intro fuel
  induction fuel with
  | zero =>
    intro iter st st' hsucc h
    simp only [loop] at h
    cases h
  | succ fuel ih =>
    intro iter st st' hsucc h
    simp only [loop] at h
    by_cases hre : (findReadyAgents agents st.executed st.shared).isEmpty = true
    · rw [if_pos hre] at h
      cases h
    · rw [if_neg hre] at h
      cases hres : runRound agents (iter + 1)
          (findReadyAgents agents st.executed st.shared) st [] with
      | error st2 =>
        rw [hres] at h
        dsimp only at h
        cases h
        obtain ⟨id, e, pre', ob', sh, lex, h1, h2, h3, _, _, _, _⟩ :=
          runRound_error_shape agents (iter + 1) _ st [] st' hres
        refine ⟨iter + 1, id, e, st.log ++ pre', by simp [h1], ?_,
          st.obs ++ ob', sh, by simp [h3]⟩
        intro en hen
        rcases List.mem_append.mp hen with hen | hen
        · exact hsucc en hen
        · exact h2 en hen
      | ok p =>
        obtain ⟨st2, etr⟩ := p
        rw [hres] at h
        dsimp only at h
        by_cases hetre : etr.isEmpty = true
        · rw [if_pos hetre] at h
          cases h
        · rw [if_neg hetre] at h
          obtain ⟨lo, hlog, hlo⟩ := runRound_ok_log agents (iter + 1) _ st [] st2 etr hres
          refine ih (iter + 1) _ st' ?_ h
          intro e he
          simp only [hlog] at he
          rcases List.mem_append.mp he with he | he
          · exact hsucc e he
          · exact hlo e he

/-- Claim C3: when a task raises, a failure entry for it is appended and the
run aborts immediately: the final log is success entries followed by exactly one
failure entry, the failing invocation is the last invocation of the whole run
(no further task executes in that round or any later one), and every capability
key recorded by an earlier, successful task is still present in the fact store
at the abort point.  The concrete run P, BAD, Q shows a raise aborting the run:
P has merged and is logged as success, BAD is logged as the final failure, and
Q is never invoked. -/
theorem c3_fail_fast :
    (∀ (agents : List Agent) (init : FactStore) (m : Nat) (st' : OrchState),
      (agents.map (fun a => a.agent_id)).Nodup →
      execute agents init m = .error st' →
      (∃ i id err pre, st'.log = pre ++ [failEntry i id err] ∧
        (∀ en ∈ pre, en.success = true) ∧
        ∃ ob sh, st'.obs = ob ++ [(i, id, sh)]) ∧
      (∀ e ∈ st'.log, e.success = true →
        ∃ caps, e.capabilities = some caps ∧
          ∀ c ∈ caps, hasKey st'.shared c = true)) ∧
    (∃ st', execute [agP, agRaise, agQ] [] 20 = .error st' ∧
      st'.executed = ["P"] ∧
      st'.obs.map (fun o => o.2.1) = ["P", "BAD"] ∧
      st'.log.map (fun e => (e.agent, e.success)) = [("P", true), ("BAD", false)] ∧
      hasKey st'.shared "parsed" = true) := by
  refine ⟨?_, ⟨_, rfl, rfl, rfl, rfl, rfl⟩⟩
  intro agents init m st' hU hexec
  have hInv := execute_inv agents init m hU
  have ho : outState (execute agents init m) = st' := by rw [hexec]; rfl
  rw [ho] at hInv
  refine ⟨?_, hInv.logCaps⟩
  have := loop_error_shape agents m 0
    { shared := init, executed := [], log := [], obs := [], trace := [] } st'
    (by intro e he; cases he)
  exact this hexec

/-- Witness for C3: the concrete aborted run has the stated log and observation
shape. -/
theorem c3_fail_fast_witness :
    ∃ st', execute [agP, agRaise, agQ] [] 20 = .error st' ∧
      (∃ i id err pre, st'.log = pre ++ [failEntry i id err] ∧
        (∀ en ∈ pre, en.success = true) ∧
        ∃ ob sh, st'.obs = ob ++ [(i, id, sh)]) := by
  refine ⟨_, rfl, ?_⟩
  exact ((c3_fail_fast.1 [agP, agRaise, agQ] [] 20 _ (by decide) rfl).1)

/-- Counterexample to claim C9 as stated: a failure entry records no wall-clock
duration (the Python failure dict has no execution_time key), so not every log
entry records the duration. -/
theorem c9_counterexample :
    ∃ st', execute [agRaise] [] 20 = .error st' ∧
      st'.log = [failEntry 1 "BAD" "boom"] ∧
      (failEntry 1 "BAD" "boom").execution_time = Option.none :=
  ⟨_, rfl, rfl, rfl⟩

/-- Claim C9 (amended): every log entry records the task identity, the round
number and the outcome; success entries additionally record the produced
capabilities and the wall-clock duration and no error; failure entries record
the error detail but neither capabilities nor duration.  The log is append-only,
ordered by round number. -/
theorem c9_log_entries :
    ∀ (agents : List Agent) (init : FactStore) (m : Nat),
      (agents.map (fun a => a.agent_id)).Nodup →
      (∀ e ∈ (outState (execute agents init m)).log,
        (e.success = true → e.capabilities.isSome = true ∧
          e.execution_time = some 0 ∧ e.error = Option.none) ∧
        (e.success = false → e.capabilities = Option.none ∧
          e.execution_time = Option.none ∧ e.error.isSome = true)) ∧
      List.Chain' (fun x y => x ≤ y)
        ((outState (execute agents init m)).log.map (fun e => e.iteration)) := by
  intro agents init m hU
  have hInv := execute_inv agents init m hU
  exact ⟨hInv.logShape, hInv.logChain⟩

/-- Witness for the amended C9 on a concrete aborted run with one success and
one failure entry. -/
theorem c9_log_entries_witness :
    ([agP, agRaise].map (fun a => a.agent_id)).Nodup ∧
    (∀ e ∈ (outState (execute [agP, agRaise] [] 20)).log,
      (e.success = true → e.capabilities.isSome = true ∧
        e.execution_time = some 0 ∧ e.error = Option.none) ∧
      (e.success = false → e.capabilities = Option.none ∧
        e.execution_time = Option.none ∧ e.error.isSome = true)) :=
  ⟨by decide, (c9_log_entries [agP, agRaise] [] 20 (by decide)).1⟩

/-! ### Claim C2 -/

/-- A round that does not list an id never invokes it. -/
theorem runRound_not_invoked (agents : List Agent) (I : Nat) (ourId : String) :
    ∀ (rl : List String) (st : OrchState) (etr : List String),
      ourId ∉ rl →
      invocations (rrState (runRound agents I rl st etr)) ourId =
        invocations st ourId := by
  intro rl
  induction rl with
  | nil => intro st etr _; rfl
  | cons id rest ih =>
    intro st etr hmem
    have hid : id ≠ ourId := fun he => hmem (he ▸ List.mem_cons_self id rest)
    have hrest : ourId ∉ rest := fun he => hmem (List.mem_cons_of_mem id he)
    have hbeq : (id == ourId) = false := by simpa using hid
    cases hga : getAgent agents id with
    | none =>
      simp only [runRound, hga]
      exact ih st etr hrest
    | some a =>
      cases hae : agentExecute a st.shared with
      | error e =>
        simp only [runRound, hga, hae, rrState]
        simp [invocations, List.filter_append, hbeq]
      | ok r =>
        simp only [runRound, hga, hae]
        by_cases ht : truthy r = true
        · rw [if_pos ht]
          rw [ih _ (etr ++ [id]) hrest]
          simp [invocations, List.filter_append, hbeq]
        · rw [if_neg ht]
          rw [ih _ etr hrest]
          simp [invocations, List.filter_append, hbeq]

/-- A round invokes an id at most as often as the id occurs in its list. -/
theorem runRound_invocations_le (agents : List Agent) (I : Nat) (ourId : String) :
    ∀ (rl : List String) (st : OrchState) (etr : List String),
      invocations (rrState (runRound agents I rl st etr)) ourId ≤
        invocations st ourId + rl.count ourId := by
  intro rl
  induction rl with
  | nil => intro st etr; simp [rrState, runRound]
  | cons id rest ih =>
    intro st etr
    have hcnt : (id :: rest).count ourId =
        rest.count ourId + (if (id == ourId) = true then 1 else 0) := by
      simp [List.count_cons]
    cases hga : getAgent agents id with
    | none =>
      simp only [runRound, hga]
      calc invocations (rrState (runRound agents I rest st etr)) ourId
          ≤ invocations st ourId + rest.count ourId := ih st etr
        _ ≤ invocations st ourId + (id :: rest).count ourId := by
            rw [hcnt]; omega
    | some a =>
      have hobs : ∀ sh, (List.filter (fun o => o.2.1 == ourId)
          (st.obs ++ [(I, id, sh)])).length =
          invocations st ourId + (if (id == ourId) = true then 1 else 0) := by
        intro sh
        by_cases hb : (id == ourId) = true <;>
          simp [invocations, List.filter_append, hb]
      cases hae : agentExecute a st.shared with
      | error e =>
        simp only [runRound, hga, hae, rrState]
        rw [hcnt]
        have := hobs st.shared
        simp only [invocations] at this ⊢
        rw [this]
        omega
      | ok r =>
        simp only [runRound, hga, hae]
        by_cases ht : truthy r = true
        · rw [if_pos ht]
          refine le_trans (ih _ (etr ++ [id])) ?_
          have := hobs st.shared
          simp only [invocations] at this ⊢
          rw [this, hcnt]
          omega
        · rw [if_neg ht]
          refine le_trans (ih _ etr) ?_
          have := hobs st.shared
          simp only [invocations] at this ⊢
          rw [this, hcnt]
          omega

/-- In a normally-returning round, a listed id resolving to a truthy-or-raising
agent whose dependencies held at round start ends up executed. -/
theorem runRound_executes_of_mem (agents : List Agent) (I : Nat) (ourId : String)
    (a : Agent) (hga : getAgent agents ourId = some a) (htr : TruthyOrRaise a) :
    ∀ (rl : List String) (st : OrchState) (etr : List String) (st' : OrchState)
      (etr' : List String),
      runRound agents I rl st etr = .ok (st', etr') →
      ourId ∈ rl → canExecute a st.shared = true →
      ourId ∈ st'.executed := by
  intro rl
  induction rl with
  | nil => intro st etr st' etr' _ hmem; cases hmem
  | cons id rest ih =>
    intro st etr st' etr' h hmem hce
    rcases List.mem_cons.mp hmem with hid | hid
    · subst hid
      cases hrun : a.run st.shared with
      | error e =>
        have hae : agentExecute a st.shared = .error e := by
          unfold agentExecute; rw [if_pos hce]; exact hrun
        simp only [runRound, hga, hae] at h
        cases h
      | ok r =>
        have hae : agentExecute a st.shared = .ok r := by
          unfold agentExecute; rw [if_pos hce]; exact hrun
        have ht : truthy r = true := htr st.shared r hrun
        simp only [runRound, hga, hae] at h
        rw [if_pos ht] at h
        obtain ⟨l, hexec, _, _, _, _⟩ := runRound_ok_delta agents I rest _ _ st' etr' h
        rw [hexec]
        simp
    · cases hga' : getAgent agents id with
      | none =>
        simp only [runRound, hga'] at h
        exact ih st etr st' etr' h hid hce
      | some b =>
        cases hae : agentExecute b st.shared with
        | error e =>
          simp only [runRound, hga', hae] at h
          cases h
        | ok r =>
          simp only [runRound, hga', hae] at h
          by_cases ht : truthy r = true
          · rw [if_pos ht] at h
            refine ih _ (etr ++ [id]) st' etr' h hid ?_
            exact canExecute_mono a
              (keysMono_mergeAgentCaps b.capabilities st.shared r) hce
          · rw [if_neg ht] at h
            exact ih _ etr st' etr' h hid hce

/-- Across the whole loop, an agent whose process body never returns a falsy
value is invoked at most once. -/
theorem loop_invocations (agents : List Agent)
    (hU : (agents.map (fun a => a.agent_id)).Nodup) (a : Agent) (ha : a ∈ agents)
    (htr : TruthyOrRaise a) :
    ∀ (fuel iter : Nat) (st : OrchState),
      invocations st a.agent_id ≤ 1 →
      (1 ≤ invocations st a.agent_id → a.agent_id ∈ st.executed) →
      invocations (outState (loop agents iter fuel st)) a.agent_id ≤ 1 := by
  intro fuel
  induction fuel with
  | zero => intro iter st h1 _; exact h1
  | succ fuel ih =>
    intro iter st h1 h2
    simp only [loop]
    by_cases hre : (findReadyAgents agents st.executed st.shared).isEmpty = true
    · rw [if_pos hre]
      exact h1
    · rw [if_neg hre]
      by_cases hmem : a.agent_id ∈ findReadyAgents agents st.executed st.shared
      · have hnx : a.agent_id ∉ st.executed :=
          findReady_not_executed agents st.executed st.shared a.agent_id hmem
        have hzero : invocations st a.agent_id = 0 := by
          by_contra hnz
          exact hnx (h2 (by omega))
        have hcount : (findReadyAgents agents st.executed st.shared).count
            a.agent_id ≤ 1 :=
          List.nodup_iff_count_le_one.mp
            (findReadyAgents_nodup agents st.executed st.shared hU) a.agent_id
        have hce : canExecute a st.shared = true := by
          rw [mem_findReadyAgents] at hmem
          obtain ⟨b, hbmem, hbid, _, hbce⟩ := hmem
          have hba : b = a := agent_id_inj agents hU b a hbmem ha hbid
          exact hba ▸ hbce
        have hga : getAgent agents a.agent_id = some a :=
          getAgent_eq_self agents hU a ha
        have hle := runRound_invocations_le agents (iter + 1) a.agent_id
          (findReadyAgents agents st.executed st.shared) st []
        cases hres : runRound agents (iter + 1)
            (findReadyAgents agents st.executed st.shared) st [] with
        | error st2 =>
          rw [hres] at hle
          show invocations st2 a.agent_id ≤ 1
          have : invocations st2 a.agent_id ≤ invocations st a.agent_id +
              (findReadyAgents agents st.executed st.shared).count a.agent_id := hle
          omega
        | ok p =>
          obtain ⟨st2, etr⟩ := p
          rw [hres] at hle
          have hle2 : invocations st2 a.agent_id ≤ invocations st a.agent_id +
              (findReadyAgents agents st.executed st.shared).count a.agent_id := hle
          have hexec2 : a.agent_id ∈ st2.executed :=
            runRound_executes_of_mem agents (iter + 1) a.agent_id a hga htr
              _ st [] st2 etr hres hmem hce
          dsimp only
          by_cases hetre : etr.isEmpty = true
          · rw [if_pos hetre]
            show invocations st2 a.agent_id ≤ 1
            omega
          · rw [if_neg hetre]
            refine ih (iter + 1) _ ?_ ?_
            · show invocations st2 a.agent_id ≤ 1
              omega
            · intro _
              show a.agent_id ∈ st2.executed
              exact hexec2
      · have heq := runRound_not_invoked agents (iter + 1) a.agent_id
          (findReadyAgents agents st.executed st.shared) st [] hmem
        cases hres : runRound agents (iter + 1)
            (findReadyAgents agents st.executed st.shared) st [] with
        | error st2 =>
          rw [hres] at heq
          show invocations st2 a.agent_id ≤ 1
          have : invocations st2 a.agent_id = invocations st a.agent_id := heq
          omega
        | ok p =>
          obtain ⟨st2, etr⟩ := p
          rw [hres] at heq
          have heq2 : invocations st2 a.agent_id = invocations st a.agent_id := heq
          obtain ⟨l, hexec, _, _, _, _⟩ :=
            runRound_ok_delta agents (iter + 1) _ st [] st2 etr hres
          dsimp only
          by_cases hetre : etr.isEmpty = true
          · rw [if_pos hetre]
            show invocations st2 a.agent_id ≤ 1
            omega
          · rw [if_neg hetre]
            refine ih (iter + 1) _ ?_ ?_
            · show invocations st2 a.agent_id ≤ 1
              omega
            · intro hone
              have hone2 : 1 ≤ invocations st2 a.agent_id := hone
              show a.agent_id ∈ st2.executed
              have hmem0 : a.agent_id ∈ st.executed := h2 (by omega)
              rw [hexec]
              exact List.mem_append.mpr (Or.inl hmem0)

/-- Counterexample to claim C2 as stated: the agent agFalsy, whose process
returns None, is invoked in round 1 and again in round 2 of the same run: its
run operation executes in two rounds of one scheduling pass. -/
theorem c2_counterexample :
    (outState (execute [agFalsy, agP] [] 20)).obs.map (fun o => (o.1, o.2.1)) =
      [(1, "F"), (1, "P"), (2, "F")] ∧
    invocations (outState (execute [agFalsy, agP] [] 20)) "F" = 2 :=
  ⟨rfl, rfl⟩

/-- Claim C2 (amended): a task whose process body never returns a falsy result
(it returns truthy values or raises) is invoked at most once per scheduling
run; only tasks returning falsy results can be re-invoked in later rounds,
because they are never recorded as executed. -/
theorem c2_at_most_once :
    ∀ (agents : List Agent) (init : FactStore) (m : Nat) (a : Agent),
      (agents.map (fun a => a.agent_id)).Nodup →
      a ∈ agents → TruthyOrRaise a →
      invocations (outState (execute agents init m)) a.agent_id ≤ 1 := by
  intro agents init m a hU ha htr
  exact loop_invocations agents hU a ha htr m 0
    { shared := init, executed := [], log := [], obs := [], trace := [] }
    (by simp [invocations]) (by simp [invocations])

/-- Witness for the amended C2: in the P, Q run, P (which always returns a
truthy mapping) is invoked exactly at most once. -/
theorem c2_at_most_once_witness :
    TruthyOrRaise agP ∧
    invocations (outState (execute [agP, agQ] [] 20)) "P" ≤ 1 := by
  have htr : TruthyOrRaise agP := by
    intro s r h
    cases h
    rfl
  exact ⟨htr, c2_at_most_once [agP, agQ] [] 20 agP (by decide)
    (List.mem_cons_self _ _) htr⟩

/-! ### Claim C6 -/

/-- When every ready id resolves to an agent whose dependencies held at round
start and whose process always returns a truthy value, the whole round
succeeds and executes exactly the ready list, in order. -/
theorem runRound_progress (agents : List Agent) (I : Nat) :
    ∀ (rl : List String) (st : OrchState) (etr : List String),
      (∀ id ∈ rl, ∃ a, getAgent agents id = some a ∧
        canExecute a st.shared = true ∧ AlwaysOkTruthy a) →
      ∃ st', runRound agents I rl st etr = .ok (st', etr ++ rl) ∧
        st'.executed = st.executed ++ rl ∧ KeysMono st.shared st'.shared := by
  intro rl
  induction rl with
  | nil =>
    intro st etr _
    exact ⟨st, by simp [runRound], by simp, keysMono_refl st.shared⟩
  | cons id rest ih =>
    intro st etr h
    obtain ⟨a, hga, hce, hok⟩ := h id (List.mem_cons_self id rest)
    obtain ⟨r, hrun, ht⟩ := hok st.shared
    have hae : agentExecute a st.shared = .ok r := by
      unfold agentExecute
      rw [if_pos hce]
      exact hrun
    have hmono1 : KeysMono st.shared (mergeAgentCaps a.capabilities st.shared r) :=
      keysMono_mergeAgentCaps a.capabilities st.shared r
    obtain ⟨st', heq, hexec, hmono⟩ := ih
      { st with
        shared := mergeAgentCaps a.capabilities st.shared r
        executed := st.executed ++ [id]
        log := st.log ++ [successEntry I id a.capabilities]
        obs := st.obs ++ [(I, id, st.shared)] }
      (etr ++ [id])
      (by
        intro id' hid'
        obtain ⟨a', hga', hce', hok'⟩ := h id' (List.mem_cons_of_mem id hid')
        exact ⟨a', hga', canExecute_mono a' hmono1 hce', hok'⟩)
    refine ⟨st', ?_, ?_, keysMono_trans hmono1 hmono⟩
    · simp only [runRound, hga, hae]
      rw [if_pos ht]
      rw [heq]
      simp
    · rw [hexec]
      simp

/-- Under a ranking witnessing acyclicity and producer coverage, and with
truthy, non-raising tasks, the loop settles normally with every task executed,
provided the fuel still covers the maximal rank. -/
theorem loop_progress (agents : List Agent) (init : FactStore)
    (hU : (agents.map (fun a => a.agent_id)).Nodup) (rank : String → Nat)
    (htruthy : ∀ a ∈ agents, AlwaysOkTruthy a)
    (hrank : ∀ a ∈ agents, ∀ c ∈ a.dependencies, hasKey init c = true ∨
      ∃ b ∈ agents, c ∈ b.capabilities ∧ rank b.agent_id < rank a.agent_id) :
    ∀ (fuel iter : Nat) (st : OrchState),
      Inv agents init iter st →
      (∀ a ∈ agents, rank a.agent_id < iter → a.agent_id ∈ st.executed) →
      (∀ a ∈ agents, rank a.agent_id < iter + fuel) →
      ∃ st', loop agents iter fuel st = .ok st' ∧
        ∀ a ∈ agents, a.agent_id ∈ st'.executed := by
  intro fuel
  induction fuel with
  | zero =>
    intro iter st _ hdone hbound
    refine ⟨st, rfl, fun a ha => hdone a ha ?_⟩
    have := hbound a ha
    omega
  | succ fuel ih =>
    intro iter st hInv hdone hbound
    have hready : ∀ a ∈ agents, a.agent_id ∉ st.executed →
        (∀ b ∈ agents, rank b.agent_id < rank a.agent_id →
          b.agent_id ∈ st.executed) →
        a.agent_id ∈ findReadyAgents agents st.executed st.shared := by
      intro a ha hnx hlower
      rw [mem_findReadyAgents]
      refine ⟨a, ha, rfl, by simpa using hnx, ?_⟩
      rw [canExecute, List.all_eq_true]
      intro c hc
      rcases hrank a ha c hc with hi | ⟨b, hbmem, hbc, hblt⟩
      · exact hInv.initKeys c hi
      · have hbex := hlower b hbmem hblt
        obtain ⟨ag, hgag, hcaps⟩ := hInv.execCaps b.agent_id hbex
        obtain ⟨hagmem, hagid⟩ := getAgent_mem_id agents b.agent_id ag hgag
        have hag : ag = b := agent_id_inj agents hU ag b hagmem hbmem hagid
        exact hcaps c (hag ▸ hbc)
    simp only [loop]
    by_cases hre : (findReadyAgents agents st.executed st.shared).isEmpty = true
    · rw [if_pos hre]
      rw [List.isEmpty_iff] at hre
      have hall : ∀ n, ∀ a ∈ agents, rank a.agent_id = n →
          a.agent_id ∈ st.executed := by
        intro n
        induction n using Nat.strong_induction_on with
        | _ n ihr =>
          intro a ha hn
          by_contra hnx
          have hmem := hready a ha hnx (fun b hb hlt =>
            ihr (rank b.agent_id) (hn ▸ hlt) b hb rfl)
          rw [hre] at hmem
          cases hmem
      exact ⟨_, rfl, fun a ha => hall (rank a.agent_id) a ha rfl⟩
    · rw [if_neg hre]
      have hreadyprops : ∀ id ∈ findReadyAgents agents st.executed st.shared,
          ∃ a, getAgent agents id = some a ∧ canExecute a st.shared = true ∧
            AlwaysOkTruthy a := by
        intro id hid
        rw [mem_findReadyAgents] at hid
        obtain ⟨b, hbmem, hbid, _, hbce⟩ := hid
        refine ⟨b, ?_, hbce, htruthy b hbmem⟩
        rw [← hbid]
        exact getAgent_eq_self agents hU b hbmem
      obtain ⟨st2, hrr, hexec2, hmono2⟩ := runRound_progress agents (iter + 1)
        (findReadyAgents agents st.executed st.shared) st [] hreadyprops
      rw [hrr]
      dsimp only
      have hetrne : ¬ (([] : List String) ++
          findReadyAgents agents st.executed st.shared).isEmpty = true := by
        simp only [List.nil_append]
        rw [List.isEmpty_iff]
        intro he
        rw [he] at hre
        exact hre rfl
      rw [if_neg hetrne]
      have hInv1 : Inv agents init (iter + 1) st := inv_weaken hInv (Nat.le_succ iter)
      have hnd : (findReadyAgents agents st.executed st.shared).Nodup :=
        findReadyAgents_nodup agents st.executed st.shared hU
      have hnx : ∀ id ∈ findReadyAgents agents st.executed st.shared,
          id ∉ st.executed :=
        fun id hid => findReady_not_executed agents st.executed st.shared id hid
      have hInv2 := runRound_inv agents init (iter + 1) hU
        (findReadyAgents agents st.executed st.shared) st [] hInv1 hnd hnx
      rw [hrr] at hInv2
      obtain ⟨l, hexecd, hetrd, _, htrace, hmonod⟩ :=
        runRound_ok_delta agents (iter + 1) _ st []
          st2 ([] ++ findReadyAgents agents st.executed st.shared) hrr
      have hetrex : ∀ id ∈ ([] : List String) ++
          findReadyAgents agents st.executed st.shared, id ∈ st2.executed := by
        intro id hid
        simp only [List.nil_append] at hid
        rw [hexec2]
        exact List.mem_append.mpr (Or.inr hid)
      have hInv3 := inv_round_append hInv1 hInv2 htrace hmonod
        (findReadyAgents agents st.executed st.shared)
        ([] ++ findReadyAgents agents st.executed st.shared) hetrex
      have hdone2 : ∀ a ∈ agents, rank a.agent_id < iter + 1 →
          a.agent_id ∈ st2.executed := by
        intro a ha hlt
        rcases Nat.lt_succ_iff_lt_or_eq.mp hlt with hlt' | heq'
        · rw [hexec2]
          exact List.mem_append.mpr (Or.inl (hdone a ha hlt'))
        · by_cases hx : a.agent_id ∈ st.executed
          · rw [hexec2]
            exact List.mem_append.mpr (Or.inl hx)
          · have hmem := hready a ha hx (fun b hb hblt =>
              hdone b hb (by omega))
            rw [hexec2]
            exact List.mem_append.mpr (Or.inr hmem)
      obtain ⟨st', heq', hall'⟩ := ih (iter + 1)
        { st2 with trace := st2.trace ++
            [⟨st.shared, findReadyAgents agents st.executed st.shared,
              [] ++ findReadyAgents agents st.executed st.shared⟩] }
        hInv3
        (by
          intro a ha hlt
          show a.agent_id ∈ st2.executed
          exact hdone2 a ha hlt)
        (by
          intro a ha
          have := hbound a ha
          omega)
      exact ⟨st', heq', fun a ha => hall' a ha⟩

/-- Counterexample to claim C6 as stated: the task set P, Q is acyclic and every
required capability has a producer, yet the run with iteration ceiling 1 stops
at the ceiling with Q never executed and reported unsatisfied. -/
theorem c6_counterexample :
    ∃ st, execute [agP, agQ] [] 1 = .ok st ∧ st.executed = ["P"] ∧
      notExecuted [agP, agQ] st = ["Q"] :=
  ⟨_, rfl, rfl, rfl⟩

/-- Claim C6 (amended): for every task set with distinct ids, no cyclic
requirement and no missing producer (witnessed by a rank function on ids under
which every non-seeded required capability has a producer of smaller rank),
where every task returns a truthy result without raising and the iteration
ceiling exceeds every rank, the run settles normally with the unsatisfied set
empty and with every registered task executed exactly once. -/
theorem c6_terminates_complete :
    ∀ (agents : List Agent) (init : FactStore) (m : Nat) (rank : String → Nat),
      (agents.map (fun a => a.agent_id)).Nodup →
      (∀ a ∈ agents, AlwaysOkTruthy a) →
      (∀ a ∈ agents, ∀ c ∈ a.dependencies, hasKey init c = true ∨
        ∃ b ∈ agents, c ∈ b.capabilities ∧ rank b.agent_id < rank a.agent_id) →
      (∀ a ∈ agents, rank a.agent_id < m) →
      ∃ st', execute agents init m = .ok st' ∧
        (∀ a ∈ agents, st'.executed.count a.agent_id = 1) ∧
        notExecuted agents st' = [] ∧
        (∀ id ∈ st'.executed, id ∈ agents.map (fun a => a.agent_id)) := by
  intro agents init m rank hU htruthy hrank hbound
  obtain ⟨st', heq, hall⟩ := loop_progress agents init hU rank htruthy hrank m 0
    { shared := init, executed := [], log := [], obs := [], trace := [] }
    (inv_init agents init)
    (by intro a _ h; omega)
    (by intro a ha; simpa using hbound a ha)
  have hexecute : execute agents init m = .ok st' := heq
  have hInv := execute_inv agents init m hU
  have ho : outState (execute agents init m) = st' := by rw [hexecute]; rfl
  rw [ho] at hInv
  refine ⟨st', hexecute, ?_, ?_, ?_⟩
  · intro a ha
    exact List.count_eq_one_of_mem hInv.nodupExec (hall a ha)
  · unfold notExecuted
    rw [List.filter_eq_nil_iff]
    intro id hid
    obtain ⟨a, ha, hid'⟩ := List.mem_map.mp hid
    have hmem : id ∈ st'.executed := hid' ▸ hall a ha
    simp [hmem]
  · intro id hid
    obtain ⟨b, hbmem, hbid, _⟩ := hInv.nbExec id hid
    exact hbid ▸ List.mem_map_of_mem (fun a => a.agent_id) hbmem

/-- Witness for the amended C6: the concrete P, Q, R scenario settles with all
three tasks executed exactly once and nothing unsatisfied. -/
theorem c6_terminates_complete_witness :
    ∃ st', execute [agP, agQ, agR] [] 20 = .ok st' ∧
      (∀ a ∈ [agP, agQ, agR], st'.executed.count a.agent_id = 1) ∧
      notExecuted [agP, agQ, agR] st' = [] := by
  have htruthy : ∀ a ∈ [agP, agQ, agR], AlwaysOkTruthy a := by
    intro a ha
    rcases List.mem_cons.mp ha with h | ha
    · subst h; exact fun s => ⟨_, rfl, rfl⟩
    rcases List.mem_cons.mp ha with h | ha
    · subst h; exact fun s => ⟨_, rfl, rfl⟩
    rcases List.mem_cons.mp ha with h | ha
    · subst h; exact fun s => ⟨_, rfl, rfl⟩
    · cases ha
  obtain ⟨st', h1, h2, h3, _⟩ := c6_terminates_complete [agP, agQ, agR] [] 20
    (fun id => if id = "P" then 0 else 1) (by decide) htruthy
    (by decide) (by decide)
  exact ⟨st', h1, h2, h3⟩

end DynOrch
